import Mathlib

/-!
h5ailist: session initialisation, filtered listing and the recursive walk

A shallow embedding of `client.go` (`Client.do`, `Client.init`, `Client.Do`,
`Client.list`, `Client.Walk`, `Client.walk`) together with the callback of
`TestWalk` from `h5ailist_test.go`.

Modelling conventions

* A Go `string` is a sequence of bytes: `GoString := List Nat`.
* The HTTP round trip, `http.NewRequest`, `url.Parse/JoinPath` (behind
  `Client.Href`), `url.PathUnescape` and `time.Now` belong to the Go standard
  library; they are fields of `Env`.  The transport is an arbitrary
  deterministic function of the requests issued before and the current one.
* Errors produced by those libraries are `LibErr` values; they are never
  equal to the package sentinels `SkipDir` / `SkipAll`, which is why they are
  embedded in `Err` through the constructor `Err.other`.
* The walk callback is an arbitrary deterministic Go closure: a function of
  the invocations made before (arguments and returned values) and of the
  current arguments.
* `World` is the mutable state: the field `cl.err`, the log of requests that
  reached the transport and the log of callback invocations.
* `Client.walk` recurses over what the server answers, so the model takes a
  recursion budget and reports `Res.outOfFuel` when it is used up.
-/

namespace H5ailist

/-- A Go string, as its sequence of bytes. -/
abbrev GoString := List Nat

/-- Bytes of an ASCII string literal. -/
def bytes (s : String) : GoString := s.toList.map Char.toNat

/-- An error value produced by the Go standard library (net/http, net/url,
encoding/json, fmt), identified by its message. -/
abbrev LibErr := String

/-- Go `error` values as seen by the walk: the two sentinels of the package
(`SkipDir`, `SkipAll`) and every other error. -/
inductive Err where
  | SkipDir
  | SkipAll
  | other (msg : LibErr)
  deriving DecidableEq, Repr

deriving instance DecidableEq for Except

/-- The struct `Item` (`Time` is kept as milliseconds). -/
structure Item where
  Fetched : Bool
  Href : GoString
  Managed : Bool
  Size : Option Int
  Time : Int
  deriving DecidableEq, Repr

/-- Method `Item.IsDir`. -/
def Item.IsDir (item : Item) : Bool := item.Managed == true

/-- Method `Item.FileSize`. -/
def Item.FileSize (item : Item) : Int :=
  match item.Size with
  | some n => n
  | none => 0

/-- The two JSON request bodies the client sends: the session handshake
(`langs`, `options`, `setup`, `theme`, `types`) and the listing request
carrying `href` and `what: 1`. -/
inductive Payload where
  | setup
  | items (href : GoString)
  deriving DecidableEq, Repr

/-- A request handed to the transport. -/
structure Request where
  method : String
  url : GoString
  body : Payload
  deriving DecidableEq, Repr

/-- A transport response: the status code and the outcome of strictly
decoding the body into the `Items` field of the result struct. -/
structure Response where
  status : Nat
  items : Except LibErr (List Item)

/-- One invocation of the walk callback: its three arguments and the value it
returned. -/
structure Call where
  path : GoString
  item : Option Item
  err : Option Err
  ret : Option Err
  deriving DecidableEq, Repr

/-- A walk callback (`WalkFunc`): the returned error as a function of the
earlier invocations and the three arguments. -/
abbrev WalkFunc := List Call → GoString → Option Item → Option Err → Option Err

/-- Standard-library behaviour the client depends on. -/
structure Env where
  /-- Result of `Client.Href(paths...)`: the URL string and the escaped path. -/
  Href : List GoString → Except LibErr (GoString × GoString)
  /-- Function `url.PathUnescape`. -/
  PathUnescape : GoString → Except LibErr GoString
  /-- Error of `http.NewRequest` inside `BuildRequest`, if any. -/
  NewRequest : String → GoString → Option LibErr
  /-- The HTTP client: outcome of a request given the requests issued before. -/
  RoundTrip : List Request → Request → Except LibErr Response
  /-- Value of `time.Now()` in milliseconds. -/
  now : Int

/-- Mutable state: `cl.err`, the requests that reached the transport (oldest
first) and the callback invocations (oldest first). -/
structure World where
  err : Option LibErr
  reqs : List Request
  calls : List Call
  deriving DecidableEq, Repr

/-- A freshly constructed client: no stored error, nothing sent, nothing called. -/
def World.fresh : World := { err := none, reqs := [], calls := [] }

/-- Function `strings.HasSuffix(s, "/")`. -/
def hasSlashSuffix (s : GoString) : Bool := s.getLast? == some 47

/-- Function `strings.LastIndexByte(s, '/')`, with `none` for `-1`. -/
def lastIndexSlash : GoString → Option Nat
  | [] => none
  | c :: rest =>
    match lastIndexSlash rest with
    | some i => some (i + 1)
    | none => if c = 47 then some 0 else none

/-- Function `strings.HasPrefix`. -/
def HasPrefix (s p : GoString) : Bool := p.isPrefixOf s

/-- Method `Client.do`: build the request, send it, check the status and, when
a destination is given (`decode`), decode the body.  With no destination a
successful exchange yields the empty item list.  Encoding the request body
cannot fail for the two maps of strings, booleans and integers the client
sends, so that exit is left out. -/
def Client.do (env : Env) (w : World) (method : String) (urlstr : GoString)
    (request : Payload) (decode : Bool) : Except LibErr (List Item) × World :=
  match env.NewRequest method urlstr with
  | some e => (.error e, w)
  | none =>
    let req : Request := { method := method, url := urlstr, body := request }
    let w1 : World := { w with reqs := w.reqs ++ [req] }
    match env.RoundTrip w.reqs req with
    | .error e => (.error e, w1)
    | .ok res =>
      if res.status ≠ 200 then (.error "status != 200", w1)
      else if decode = false then (.ok [], w1)
      else (res.items, w1)

/-- The directory normalisation at the start of `Client.init`. -/
def initURL (urlstr : GoString) : GoString :=
  if hasSlashSuffix urlstr then urlstr
  else
    match lastIndexSlash urlstr with
    | some i => urlstr.take (i + 1)
    | none => urlstr ++ [47]

/-- Method `Client.init`. -/
def Client.init (env : Env) (w : World) (urlstr : GoString) : Option LibErr × World :=
  match w.err with
  | some e => (some e, w)
  | none =>
    match Client.do env w "POST" (initURL urlstr) Payload.setup false with
    | (.error e, w1) => (some e, { w1 with err := some e })
    | (.ok _, w1) => (none, { w1 with err := none })

/-- Method `Client.Do`. -/
def Client.Do (env : Env) (w : World) (method : String) (urlstr : GoString)
    (request : Payload) (decode : Bool) : Except LibErr (List Item) × World :=
  match Client.init env w urlstr with
  | (some e, w1) => (.error e, w1)
  | (none, w1) => Client.do env w1 method urlstr request decode

/-- The filtering loop of `Client.list`: unescape each href, fail on the first
malformed one, keep the items below `h`. -/
def filterLoop (env : Env) (h : GoString) : List Item → List Item → Except LibErr (List Item)
  | [], items => .ok items
  | item :: rest, items =>
    match env.PathUnescape item.Href with
    | .error e => .error e
    | .ok d =>
      let item1 : Item := { item with Href := d }
      if item1.Href ≠ h ∧ HasPrefix item1.Href h = true then
        filterLoop env h rest (items ++ [item1])
      else filterLoop env h rest items

/-- Method `Client.list`. -/
def Client.list (env : Env) (w : World) (urlstr href : GoString) (filter : Bool) :
    Except LibErr (List Item) × World :=
  let urlstr := if hasSlashSuffix urlstr then urlstr else urlstr ++ [47]
  match Client.Do env w "POST" urlstr (Payload.items href) true with
  | (.error e, w1) => (.error e, w1)
  | (.ok resItems, w1) =>
    if filter = false then (.ok resItems, w1)
    else
      match env.PathUnescape href with
      | .error e => (.error e, w1)
      | .ok h => (filterLoop env h resItems [], w1)

/-- Method `Client.Items`. -/
def Client.Items (env : Env) (w : World) (paths : List GoString) :
    Except LibErr (List Item) × World :=
  match env.Href paths with
  | .error e => (.error e, w)
  | .ok (urlstr, href) => Client.list env w urlstr href true

/-- The `err` result of `Client.list`, as the Go `error` handed on. -/
def errOf (r : Except LibErr (List Item)) : Option Err :=
  match r with
  | .error e => some (Err.other e)
  | .ok _ => none

/-- The `items` result of `Client.list` (nil when it fails). -/
def itemsOf (r : Except LibErr (List Item)) : List Item :=
  match r with
  | .error _ => []
  | .ok items => items

/-- Outcome of a budgeted run: the Go function returned `e`, or the recursion
budget was used up before it could return. -/
inductive Res where
  | ret (e : Option Err)
  | outOfFuel
  deriving DecidableEq, Repr

/-- The log entry of invoking the callback after the invocations `calls`. -/
def logged (fn : WalkFunc) (calls : List Call) (path : GoString) (item : Option Item)
    (err : Option Err) : Call :=
  { path := path, item := item, err := err, ret := fn calls path item err }

/-- Invoke the callback and log the invocation. -/
def callFn (fn : WalkFunc) (w : World) (path : GoString) (item : Option Item)
    (err : Option Err) : Option Err × World :=
  (fn w.calls path item err, { w with calls := w.calls ++ [logged fn w.calls path item err] })

/-- The `for _, item := range items` loop of `Client.walk`, over the recursive
call `rec`. -/
def walkLoop (rec : World → Item → Res × World) : World → List Item → Res × World
  | w, [] => (.ret none, w)
  | w, item :: rest =>
    match rec w item with
    | (.outOfFuel, w1) => (.outOfFuel, w1)
    | (.ret err, w1) =>
      if err ≠ none ∧ err ≠ some Err.SkipDir then (.ret err, w1)
      else walkLoop rec w1 rest

/-- Method `Client.walk` (the `pathstr` argument is never read by the source
and is left out). -/
def Client.walk (env : Env) (fn : WalkFunc) : Nat → World → Item → Res × World
  | 0, w, _ => (.outOfFuel, w)
  | fuel + 1, w, item =>
    if item.IsDir = false then
      let (e, w1) := callFn fn w item.Href (some item) none
      (.ret e, w1)
    else
      match env.Href [] with
      | .error e => (.ret (some (Err.other e)), w)
      | .ok (urlstr, _) =>
        let (r, w1) := Client.list env w urlstr item.Href true
        let err := errOf r
        let items := itemsOf r
        let (e, w2) := callFn fn w1 item.Href (some item) err
        if err ≠ none ∨ e ≠ none then (.ret e, w2)
        else walkLoop (Client.walk env fn fuel) w2 items

/-- The root item synthesised by `Client.Walk`. -/
def rootItem (env : Env) (href : GoString) : Item :=
  { Fetched := true, Href := href, Managed := true, Size := none, Time := env.now }

/-- Method `Client.Walk`. -/
def Client.Walk (env : Env) (fn : WalkFunc) (fuel : Nat) (w : World) (root : GoString) :
    Res × World :=
  match env.Href [] with
  | .error e => (.ret (some (Err.other e)), w)
  | .ok (urlstr, href) =>
    let urlstr := if hasSlashSuffix urlstr then urlstr else urlstr ++ [47]
    let href := if hasSlashSuffix href then href else href ++ [47]
    let (r, w1) :=
      match Client.init env w urlstr with
      | (some e, w1) =>
        let (e1, w2) := callFn fn w1 root none (some (Err.other e))
        (Res.ret e1, w2)
      | (none, w1) => Client.walk env fn fuel w1 (rootItem env href)
    match r with
    | .outOfFuel => (.outOfFuel, w1)
    | .ret err =>
      if err = some Err.SkipDir ∨ err = some Err.SkipAll then (.ret none, w1)
      else (.ret err, w1)

/-- The callback of `TestWalk`: hand back a non-nil error, otherwise record
the item and return nil. -/
def testWalkFn : WalkFunc := fun _ _ _ err => err

/-- The `items` slice of `TestWalk` after the logged invocations: the items of
the invocations that received no error. -/
def recorded (calls : List Call) : List Item :=
  calls.filterMap (fun c => if c.err = none then c.item else none)

/-- Hexadecimal digit test of Go's `net/url`. -/
def ishex (c : Nat) : Bool :=
  (48 ≤ c && c ≤ 57) || (97 ≤ c && c ≤ 102) || (65 ≤ c && c ≤ 70)

/-- Value of a hexadecimal digit. -/
def unhex (c : Nat) : Nat :=
  if 48 ≤ c ∧ c ≤ 57 then c - 48
  else if 97 ≤ c ∧ c ≤ 102 then c - 97 + 10
  else if 65 ≤ c ∧ c ≤ 70 then c - 65 + 10
  else 0

/-- Behaviour of `url.PathUnescape` from the Go standard library, on byte
strings: every `%` must be followed by two hexadecimal digits, which are
replaced by the byte they denote.  It instantiates `Env.PathUnescape` in the
concrete servers below. -/
def goPathUnescape : GoString → Except LibErr GoString
  | [] => .ok []
  | 37 :: a :: b :: rest =>
    if ishex a && ishex b then
      match goPathUnescape rest with
      | .ok t => .ok ((unhex a * 16 + unhex b) :: t)
      | .error e => .error e
    else .error "invalid URL escape"
  | c :: rest =>
    if c = 37 then .error "invalid URL escape"
    else
      match goPathUnescape rest with
      | .ok t => .ok (c :: t)
      | .error e => .error e

/-! ## Specification-side definitions -/

/-- An item with its href percent-decoded (left as it is when the href is
malformed). -/
def decodeItem (env : Env) (item : Item) : Item :=
  match env.PathUnescape item.Href with
  | .ok d => { item with Href := d }
  | .error _ => item

/-- The filtered listing in the words of the specification: the response items
with decoded hrefs, in the order of the response, restricted to those whose
href differs from the decoded parent href `h` and starts with it. -/
def specItems (env : Env) (h : GoString) (R : List Item) : List Item :=
  (R.map (decodeItem env)).filter (fun d => decide (d.Href ≠ h) && decide (h <+: d.Href))

/-- The transport answers every request the same way whatever was sent
before: a fixed assignment of responses to requests. -/
def FixedTransport (env : Env) : Prop :=
  ∀ hist req, env.RoundTrip hist req = env.RoundTrip [] req

/-- Operations a caller may run on a client after a handshake. -/
inductive Op where
  | init (urlstr : GoString)
  | Do (method : String) (urlstr : GoString) (request : Payload) (decode : Bool)
  | list (urlstr href : GoString) (filter : Bool)

/-- Error returned by one operation, and the state it leaves. -/
def Op.run (env : Env) (w : World) : Op → Option LibErr × World
  | .init urlstr => Client.init env w urlstr
  | .Do method urlstr request decode =>
    match Client.Do env w method urlstr request decode with
    | (.error e, w1) => (some e, w1)
    | (.ok _, w1) => (none, w1)
  | .list urlstr href filter =>
    match Client.list env w urlstr href filter with
    | (.error e, w1) => (some e, w1)
    | (.ok _, w1) => (none, w1)

/-- Errors returned by a sequence of operations, and the final state. -/
def runOps (env : Env) : World → List Op → List (Option LibErr) × World
  | w, [] => ([], w)
  | w, op :: ops =>
    let (e, w1) := Op.run env w op
    let (es, w2) := runOps env w1 ops
    (e :: es, w2)

/-- A finite record of what the server answers below an item: a file, a
directory with the subtrees of its filtered listing, or a directory whose
listing fails. -/
inductive Tree where
  | file (item : Item)
  | dir (item : Item) (children : List Tree)
  | failed (item : Item) (e : LibErr)

/-- The item at the root of a tree. -/
def Tree.item : Tree → Item
  | .file item => item
  | .dir item _ => item
  | .failed item _ => item

mutual
/-- Depth-first pre-order of a tree: every item, parent before children,
children in listing order, with the error of its listing if that fails. -/
def Tree.preorder : Tree → List (Item × Option LibErr)
  | .file item => [(item, none)]
  | .failed item e => [(item, some e)]
  | .dir item children => (item, none) :: preorderList children
/-- Pre-order of a sequence of sibling trees. -/
def preorderList : List Tree → List (Item × Option LibErr)
  | [] => []
  | t :: ts => t.preorder ++ preorderList ts
end

mutual
/-- Number of nested visits a tree needs: one for a file or a failed
directory, one more than its deepest child for a directory. -/
def Tree.height : Tree → Nat
  | .file _ => 1
  | .failed _ _ => 1
  | .dir _ children => heightList children + 1
/-- Largest height among sibling trees. -/
def heightList : List Tree → Nat
  | [] => 0
  | t :: ts => max t.height (heightList ts)
end

/-- The tree `t` records the answers of `env` as far as a depth-first visit
that stops at the first failing listing reaches them: files are not
directories, a failed node is a directory whose filtered listing fails, a
directory node lists exactly the roots of its children, and a child is itself
served whenever every listing among its elder siblings and their subtrees
succeeds.  What follows the first failing listing is left unconstrained. -/
inductive Serves (env : Env) (urlstr : GoString) : Tree → Prop
  | file (item : Item) : item.IsDir = false → Serves env urlstr (.file item)
  | failed (item : Item) (e : LibErr) : item.IsDir = true →
      (Client.list env World.fresh urlstr item.Href true).1 = .error e →
      Serves env urlstr (.failed item e)
  | dir (item : Item) (children : List Tree) : item.IsDir = true →
      (Client.list env World.fresh urlstr item.Href true).1 = .ok (children.map Tree.item) →
      (∀ pre c post, children = pre ++ c :: post →
        (∀ x ∈ preorderList pre, x.2 = none) → Serves env urlstr c) →
      Serves env urlstr (.dir item children)

/-- The entries of a pre-order up to and including the first one whose
listing failed. -/
def upToFirstErr : List (Item × Option LibErr) → List (Item × Option LibErr)
  | [] => []
  | x :: xs => if x.2.isSome then [x] else x :: upToFirstErr xs

/-- The first listing error of a pre-order. -/
def firstErr (l : List (Item × Option LibErr)) : Option LibErr :=
  (l.filterMap Prod.snd).head?

/-- The callback invocation for a visited item when the callback hands back
the error it receives. -/
def visitCall (x : Item × Option LibErr) : Call :=
  { path := x.1.Href, item := some x.1, err := x.2.map Err.other, ret := x.2.map Err.other }

/-- The handshake request `Client.init` sends for `urlstr`. -/
def handshakeReq (urlstr : GoString) : Request :=
  { method := "POST", url := initURL urlstr, body := Payload.setup }

/-- The listing request `Client.list` sends for `href`. -/
def listingReq (urlstr href : GoString) : Request :=
  { method := "POST", url := urlstr, body := Payload.items href }

/-- The requests of one successful listing of `href`: the handshake that
`Client.Do` repeats, then the listing request. -/
def listingReqs (urlstr href : GoString) : List Request :=
  [handshakeReq urlstr, listingReq urlstr href]

/-- The requests of the listings of all directories of a pre-order. -/
def dirReqs (urlstr : GoString) (l : List (Item × Option LibErr)) : List Request :=
  (l.filter (fun x => x.1.IsDir)).flatMap (fun x => listingReqs urlstr x.1.Href)

/-- Item `C` lies strictly below directory `D`: the decoded href of `D` is a
proper prefix of the href of `C`. -/
def ChildOf (env : Env) (D C : Item) : Prop :=
  ∃ h, env.PathUnescape D.Href = .ok h ∧ C.Href ≠ h ∧ h <+: C.Href ∧ h.length < C.Href.length

mutual
/-- The callback invocations of one visit: first the visited item itself, then
the visits of children. -/
inductive WalkTrace (env : Env) : Item → List Call → Prop
  | visit (D : Item) (c : Call) (tr : List Call) :
      c.path = D.Href → c.item = some D → ChildTraces env D tr →
      WalkTrace env D (c :: tr)
/-- The callback invocations of the visits of some children of `D`, each child
lying strictly below `D`. -/
inductive ChildTraces (env : Env) : Item → List Call → Prop
  | done (D : Item) : ChildTraces env D []
  | child (D C : Item) (seg rest : List Call) :
      ChildOf env D C → WalkTrace env C seg → ChildTraces env D rest →
      ChildTraces env D (seg ++ rest)
end

/-- No invocation in the log returned `SkipAll`. -/
def NoSkipAll (l : List Call) : Prop := ∀ c ∈ l, c.ret ≠ some Err.SkipAll

/-- In the invocations `new` of a run with outcome `r`, `SkipAll` is returned
at most by the last one, and then the run returns `SkipAll`. -/
def SkipAllLast (r : Res) (new : List Call) : Prop :=
  NoSkipAll new ∨
    ∃ pre c, new = pre ++ [c] ∧ NoSkipAll pre ∧ c.ret = some Err.SkipAll
      ∧ r = Res.ret (some Err.SkipAll)

/-! ## Concrete servers used in the examples -/

/-- A file item. -/
def fileItem (href : String) (size : Int) : Item :=
  { Fetched := false, Href := bytes href, Managed := false, Size := some size, Time := 0 }

/-- A directory item. -/
def dirItem (href : String) : Item :=
  { Fetched := false, Href := bytes href, Managed := true, Size := none, Time := 0 }

/-- A server with the directory `/demo/` holding `a.txt` and `sub/`, the
latter holding `b c.txt` and also listing itself and its parent. -/
def demoEnv : Env where
  Href := fun _ => .ok (bytes "https://h/demo", bytes "/demo")
  PathUnescape := goPathUnescape
  NewRequest := fun _ _ => none
  RoundTrip := fun _ req =>
    match req.body with
    | .setup => .ok { status := 200, items := .ok [] }
    | .items href =>
      if href = bytes "/demo/" then
        .ok { status := 200, items := .ok [fileItem "/demo/a.txt" 5, dirItem "/demo/sub/"] }
      else if href = bytes "/demo/sub/" then
        .ok { status := 200,
              items := .ok [dirItem "/demo/", dirItem "/demo/sub/", fileItem "/demo/sub/b%20c.txt" 7] }
      else .ok { status := 404, items := .ok [] }
  now := 0

/-- A server that cannot be reached. -/
def downEnv : Env where
  Href := fun _ => .ok (bytes "https://h/demo/", bytes "/demo/")
  PathUnescape := goPathUnescape
  NewRequest := fun _ _ => none
  RoundTrip := fun _ _ => .error "connection refused"
  now := 0

/-- A server that answers the handshake and rejects every listing request. -/
def brokenEnv : Env where
  Href := fun _ => .ok (bytes "https://h/demo/", bytes "/demo/")
  PathUnescape := goPathUnescape
  NewRequest := fun _ _ => none
  RoundTrip := fun _ req =>
    match req.body with
    | .setup => .ok { status := 200, items := .ok [] }
    | .items _ => .ok { status := 500, items := .ok [] }
  now := 0

/-- A server whose root directory has a space in its name. -/
def spaceEnv : Env where
  Href := fun _ => .ok (bytes "https://h/a%20b/", bytes "/a%20b/")
  PathUnescape := goPathUnescape
  NewRequest := fun _ _ => none
  RoundTrip := fun _ req =>
    match req.body with
    | .setup => .ok { status := 200, items := .ok [] }
    | .items href =>
      if href = bytes "/a%20b/" then
        .ok { status := 200, items := .ok [fileItem "/a%20b/x" 1] }
      else .ok { status := 404, items := .ok [] }
  now := 0

/-- A server whose directory `/%2525` lists itself: the root `/` and the
directory `/%2525` both answer with the single directory entry `/%252525`,
which decodes to `/%2525` and lies below `/%25`, the second decoding that the
listing of `/%2525` filters against. -/
def loopEnv : Env where
  Href := fun _ => .ok (bytes "https://h/", bytes "/")
  PathUnescape := goPathUnescape
  NewRequest := fun _ _ => none
  RoundTrip := fun _ req =>
    match req.body with
    | .setup => .ok { status := 200, items := .ok [] }
    | .items href =>
      if href = bytes "/" ∨ href = bytes "/%2525" then
        .ok { status := 200, items := .ok [dirItem "/%252525"] }
      else .ok { status := 404, items := .ok [] }
  now := 0

/-- A server whose root lists the directory `/bad/`, whose listing is
rejected, followed by the self-listing directory `/%2525`. -/
def badLoopEnv : Env where
  Href := fun _ => .ok (bytes "https://h/", bytes "/")
  PathUnescape := goPathUnescape
  NewRequest := fun _ _ => none
  RoundTrip := fun _ req =>
    match req.body with
    | .setup => .ok { status := 200, items := .ok [] }
    | .items href =>
      if href = bytes "/" then
        .ok { status := 200, items := .ok [dirItem "/bad/", dirItem "/%252525"] }
      else if href = bytes "/%2525" then
        .ok { status := 200, items := .ok [dirItem "/%252525"] }
      else .ok { status := 500, items := .ok [] }
  now := 0

/-- The part of `badLoopEnv` a visit reaches before the first failing listing:
the root, the failing directory `/bad/`, and the unexplored entry `/%2525`. -/
def badLoopTree : Tree :=
  .dir (rootItem badLoopEnv (bytes "/"))
    [.failed (dirItem "/bad/") "status != 200", .file (dirItem "/%2525")]

/-- The tree the demo server serves below `/demo/`. -/
def demoTree : Tree :=
  .dir (rootItem demoEnv (bytes "/demo/"))
    [.file (fileItem "/demo/a.txt" 5),
     .dir (dirItem "/demo/sub/") [.file (fileItem "/demo/sub/b c.txt" 7)]]

/-- A callback that returns `SkipDir` for `/demo/sub/` and nil otherwise. -/
def skipSubFn : WalkFunc := fun _ path _ _ =>
  if path = bytes "/demo/sub/" then some Err.SkipDir else none

/-- A callback that returns `SkipAll` for `/demo/a.txt` and nil otherwise. -/
def skipAllFn : WalkFunc := fun _ path _ _ =>
  if path = bytes "/demo/a.txt" then some Err.SkipAll else none

/-- A callback that always returns nil. -/
def nilFn : WalkFunc := fun _ _ _ _ => none

/-! ## Basic facts about the session state -/

theorem init_of_err (env : Env) (w : World) (u : GoString) (e : LibErr)
    (h : w.err = some e) : Client.init env w u = (some e, w) := by
  simp [Client.init, h]

theorem Do_of_err (env : Env) (w : World) (m : String) (u : GoString) (p : Payload)
    (d : Bool) (e : LibErr) (h : w.err = some e) :
    Client.Do env w m u p d = (.error e, w) := by
  simp [Client.Do, init_of_err env w u e h]

theorem list_of_err (env : Env) (w : World) (u href : GoString) (f : Bool) (e : LibErr)
    (h : w.err = some e) : Client.list env w u href f = (.error e, w) := by
  simp [Client.list, Do_of_err env w _ _ _ _ e h]

theorem do_calls (env : Env) (w : World) (m : String) (u : GoString) (p : Payload)
    (d : Bool) : (Client.do env w m u p d).2.calls = w.calls := by
  unfold Client.do
  cases env.NewRequest m u with
  | some e => rfl
  | none =>
    simp only []
    cases env.RoundTrip w.reqs { method := m, url := u, body := p } with
    | error e => rfl
    | ok res => simp only []; split_ifs <;> rfl

theorem init_calls (env : Env) (w : World) (u : GoString) :
    (Client.init env w u).2.calls = w.calls := by
  unfold Client.init
  split
  · rfl
  · have := do_calls env w "POST" (initURL u) Payload.setup false
    split <;> simp_all

theorem Do_calls (env : Env) (w : World) (m : String) (u : GoString) (p : Payload)
    (d : Bool) : (Client.Do env w m u p d).2.calls = w.calls := by
  unfold Client.Do
  have h1 := init_calls env w u
  split
  · simp_all
  · rename_i w1 heq
    rw [do_calls]
    simp_all

theorem list_calls (env : Env) (w : World) (u href : GoString) (f : Bool) :
    (Client.list env w u href f).2.calls = w.calls := by
  unfold Client.list
  have h1 := Do_calls env w "POST" (if hasSlashSuffix u then u else u ++ [47])
    (Payload.items href) true
  simp only []
  split
  · simp_all
  · split
    · simp_all
    · split <;> simp_all

theorem filterLoop_eq (env : Env) (h : GoString) (R : List Item)
    (hR : ∀ it ∈ R, ∃ d, env.PathUnescape it.Href = .ok d) (acc : List Item) :
    filterLoop env h R acc = .ok (acc ++ specItems env h R) := by
  induction R generalizing acc with
  | nil => simp [filterLoop, specItems]
  | cons it rest ih =>
    obtain ⟨d, hd⟩ := hR it (List.mem_cons_self _ _)
    have hrest : ∀ x ∈ rest, ∃ d, env.PathUnescape x.Href = .ok d :=
      fun x hx => hR x (List.mem_cons_of_mem _ hx)
    have hspec : specItems env h (it :: rest) =
        if d ≠ h ∧ h <+: d then { it with Href := d } :: specItems env h rest
        else specItems env h rest := by
      simp only [specItems, List.map_cons, decodeItem, hd, List.filter_cons]
      by_cases h1 : d ≠ h <;> by_cases h2 : h <+: d <;> simp [h1, h2]
    rw [hspec]
    simp only [filterLoop, hd, HasPrefix, List.isPrefixOf_iff_prefix]
    by_cases hc : d ≠ h ∧ h <+: d
    · rw [if_pos hc, if_pos hc, ih hrest]; simp
    · rw [if_neg hc, if_neg hc, ih hrest]

/-- C1. When the request succeeds with response items `R` and `PathUnescape`
succeeds on the parent href and on the href of every item of `R`, the filtered
listing (`Client.list` with `filter = true`, and so `Client.Items`) returns
exactly the items of `R` with decoded hrefs, in the order of the response, that
differ from the decoded parent href and have it as a prefix. -/
theorem list_filtered_eq_specItems (env : Env) (w w1 : World) (urlstr href h : GoString)
    (R : List Item)
    (hdo : Client.Do env w "POST" (if hasSlashSuffix urlstr then urlstr else urlstr ++ [47])
      (Payload.items href) true = (.ok R, w1))
    (hh : env.PathUnescape href = .ok h)
    (hR : ∀ it ∈ R, ∃ d, env.PathUnescape it.Href = .ok d) :
    Client.list env w urlstr href true = (.ok (specItems env h R), w1)
      ∧ (∀ paths, env.Href paths = .ok (urlstr, href) →
          Client.Items env w paths = (.ok (specItems env h R), w1)) := by
  have hl : Client.list env w urlstr href true = (.ok (specItems env h R), w1) := by
    simp [Client.list, hdo, hh, filterLoop_eq env h R hR]
  refine ⟨hl, ?_⟩
  intro paths hp
  simp [Client.Items, hp, hl]

/-- C1, at the example of the specification: the listing of `/demo/` answered
with `a.txt` and `sub/` returns both items in that order. -/
theorem list_filtered_eq_specItems_witness :
    Client.list demoEnv World.fresh (bytes "https://h/demo") (bytes "/demo/") true
      = (.ok [fileItem "/demo/a.txt" 5, dirItem "/demo/sub/"],
         { err := none, reqs := listingReqs (bytes "https://h/demo/") (bytes "/demo/"), calls := [] }) := by
  have h := (list_filtered_eq_specItems demoEnv World.fresh
    { err := none, reqs := listingReqs (bytes "https://h/demo/") (bytes "/demo/"), calls := [] }
    (bytes "https://h/demo") (bytes "/demo/") (bytes "/demo/")
    [fileItem "/demo/a.txt" 5, dirItem "/demo/sub/"] (by decide) (by decide)
    (by
      intro it hit
      simp only [List.mem_cons, List.mem_singleton, List.not_mem_nil, or_false] at hit
      rcases hit with rfl | rfl
      · exact ⟨bytes "/demo/a.txt", by decide⟩
      · exact ⟨bytes "/demo/sub/", by decide⟩)).1
  rw [h]
  decide

theorem init_of_ok (env : Env) (w : World) (u : GoString) (h : w.err = none) :
    Client.init env w u
      = (match Client.do env w "POST" (initURL u) Payload.setup false with
         | (.error e, w1) => (some e, { w1 with err := some e })
         | (.ok _, w1) => (none, { w1 with err := none })) := by
  simp [Client.init, h]

/-- C2 (as stated) fails: on a server that answers every handshake, two calls
of `Client.init` in sequence both succeed and send two handshake requests. -/
theorem second_init_repeats_handshake :
    (Client.init demoEnv World.fresh (bytes "https://h/demo/")).1 = none
      ∧ (Client.init demoEnv (Client.init demoEnv World.fresh (bytes "https://h/demo/")).2
          (bytes "https://h/demo/")).1 = none
      ∧ (Client.init demoEnv (Client.init demoEnv World.fresh (bytes "https://h/demo/")).2
          (bytes "https://h/demo/")).2.reqs
        = [{ method := "POST", url := bytes "https://h/demo/", body := Payload.setup },
           { method := "POST", url := bytes "https://h/demo/", body := Payload.setup }] := by
  decide

/-- C2 (amended). Two calls of `Client.init` in sequence: when the first call
returns an error, the second returns that error and leaves the state, request
log included, untouched; when the first call returns nil, nothing is memoized
and the second call runs the handshake exchange again for its own URL,
returning the outcome of that exchange and sending one more request whenever
the request can be built. -/
theorem init_twice (env : Env) (w : World) (u1 u2 : GoString) :
    (∀ E, (Client.init env w u1).1 = some E →
        Client.init env (Client.init env w u1).2 u2 = (some E, (Client.init env w u1).2))
      ∧ ((Client.init env w u1).1 = none →
          (Client.init env (Client.init env w u1).2 u2).1
              = (match (Client.do env (Client.init env w u1).2 "POST" (initURL u2)
                    Payload.setup false).1 with
                 | .error e => some e
                 | .ok _ => none)
            ∧ (env.NewRequest "POST" (initURL u2) = none →
                (Client.init env (Client.init env w u1).2 u2).2.reqs
                  = (Client.init env w u1).2.reqs
                      ++ [{ method := "POST", url := initURL u2, body := Payload.setup }])) := by
  have herr : ∀ r, (Client.init env w u1).1 = r → (Client.init env w u1).2.err = r := by
    intro r hr
    unfold Client.init at hr ⊢
    split
    · rename_i e he; simp [he] at hr; simp [← hr, he]
    · rename_i he
      simp only [he] at hr
      split <;> simp_all
  constructor
  · intro E hE
    exact init_of_err env _ u2 E (herr _ hE)
  · intro hnone
    have h0 := herr _ hnone
    constructor
    · rw [init_of_ok env _ u2 h0]
      split <;> simp_all
    · intro hreq
      rw [init_of_ok env _ u2 h0]
      have hdo : (Client.do env (Client.init env w u1).2 "POST" (initURL u2) Payload.setup false).2.reqs
          = (Client.init env w u1).2.reqs
              ++ [{ method := "POST", url := initURL u2, body := Payload.setup }] := by
        unfold Client.do
        simp only [hreq]
        split
        · rfl
        · split_ifs <;> rfl
      split <;> simp_all

/-- C2 (amended), on concrete servers: after a failed first call the second
call sends nothing; after a successful first call the second call sends a
second handshake. -/
theorem init_twice_witness :
    Client.init downEnv (Client.init downEnv World.fresh (bytes "https://h/demo/")).2 (bytes "https://h/x")
        = (some "connection refused",
           { err := some "connection refused",
             reqs := [{ method := "POST", url := bytes "https://h/demo/", body := Payload.setup }],
             calls := [] })
      ∧ (Client.init demoEnv (Client.init demoEnv World.fresh (bytes "https://h/demo/")).2
          (bytes "https://h/x")).2.reqs
        = [{ method := "POST", url := bytes "https://h/demo/", body := Payload.setup },
           { method := "POST", url := bytes "https://h/", body := Payload.setup }] := by
  constructor
  · rw [(init_twice downEnv World.fresh (bytes "https://h/demo/") (bytes "https://h/x")).1
      "connection refused" (by decide)]
    decide
  · rw [((init_twice demoEnv World.fresh (bytes "https://h/demo/") (bytes "https://h/x")).2
      (by decide)).2 (by decide)]
    decide

theorem do_reqs (env : Env) (w : World) (m : String) (u : GoString) (p : Payload) (d : Bool) :
    (Client.do env w m u p d).2.reqs = w.reqs
      ∨ (Client.do env w m u p d).2.reqs = w.reqs ++ [{ method := m, url := u, body := p }] := by
  unfold Client.do
  cases env.NewRequest m u with
  | some e => exact Or.inl rfl
  | none =>
    right
    simp only []
    cases env.RoundTrip w.reqs { method := m, url := u, body := p } with
    | error e => rfl
    | ok res => simp only []; split_ifs <;> rfl

theorem init_reqs (env : Env) (w : World) (u : GoString) :
    (Client.init env w u).2.reqs = w.reqs
      ∨ (Client.init env w u).2.reqs = w.reqs ++ [handshakeReq u] := by
  unfold Client.init
  split
  · exact Or.inl rfl
  · have := do_reqs env w "POST" (initURL u) Payload.setup false
    unfold handshakeReq
    split <;> simp_all

theorem init_err_eq (env : Env) (w : World) (u : GoString) :
    (Client.init env w u).2.err = (Client.init env w u).1 := by
  unfold Client.init
  split
  · rename_i e he; simp [he]
  · split <;> rfl

theorem run_of_err (env : Env) (w : World) (E : LibErr) (h : w.err = some E) (op : Op) :
    Op.run env w op = (some E, w) := by
  cases op with
  | init u => exact init_of_err env w u E h
  | Do m u p d => simp [Op.run, Do_of_err env w m u p d E h]
  | list u href f => simp [Op.run, list_of_err env w u href f E h]

theorem runOps_of_err (env : Env) (w : World) (E : LibErr) (h : w.err = some E)
    (ops : List Op) : runOps env w ops = (ops.map (fun _ => some E), w) := by
  induction ops with
  | nil => rfl
  | cons op ops ih => simp [runOps, run_of_err env w E h op, ih]

/-- C3. Once `Client.init` has returned the error `E`, the error is stored,
and every later sequence of calls of `Client.init`, `Client.Do` and
`Client.list`, with any arguments, returns `E` from each call and leaves the
state unchanged: no request reaches the transport and the stored error is
neither cleared nor replaced. -/
theorem init_failure_is_sticky (env : Env) (w : World) (u : GoString) (E : LibErr)
    (hE : (Client.init env w u).1 = some E) (ops : List Op) :
    (Client.init env w u).2.err = some E
      ∧ runOps env (Client.init env w u).2 ops
          = (ops.map (fun _ => some E), (Client.init env w u).2)
      ∧ (∀ u2, Client.init env (Client.init env w u).2 u2 = (some E, (Client.init env w u).2))
      ∧ (∀ m u2 p d,
          Client.Do env (Client.init env w u).2 m u2 p d = (.error E, (Client.init env w u).2)) := by
  have h : (Client.init env w u).2.err = some E := by rw [init_err_eq, hE]
  exact ⟨h, runOps_of_err env _ E h ops, fun u2 => init_of_err env _ u2 E h,
    fun m u2 p d => Do_of_err env _ m u2 p d E h⟩

/-- C3 on an unreachable server: after the failed handshake, a second
handshake, a request and two listings all return the same error and the single
request of the first handshake stays the only one sent. -/
theorem init_failure_is_sticky_witness :
    runOps downEnv (Client.init downEnv World.fresh (bytes "https://h/demo/")).2
        [Op.init (bytes "https://h/other/"), Op.Do "POST" (bytes "https://h/") Payload.setup false,
         Op.list (bytes "https://h/demo/") (bytes "/demo/") true,
         Op.list (bytes "https://h/demo/") (bytes "/demo/") false]
      = ([some "connection refused", some "connection refused", some "connection refused",
          some "connection refused"],
         { err := some "connection refused",
           reqs := [{ method := "POST", url := bytes "https://h/demo/", body := Payload.setup }],
           calls := [] }) := by
  rw [(init_failure_is_sticky downEnv World.fresh (bytes "https://h/demo/") "connection refused"
    (by decide) _).2.1]
  decide

/-- C7 (as stated) fails: the handshake fails and the callback returns nil;
`Walk` then returns nil, not the initialization error. -/
theorem nil_callback_swallows_init_error :
    (Client.init downEnv World.fresh (bytes "https://h/demo/")).1 = some "connection refused"
      ∧ Client.Walk downEnv nilFn 3 World.fresh (bytes "/")
        = (Res.ret none,
           { err := some "connection refused",
             reqs := [{ method := "POST", url := bytes "https://h/demo/", body := Payload.setup }],
             calls := [{ path := bytes "/", item := none,
                         err := some (Err.other "connection refused"), ret := none }] }) := by
  decide

theorem Walk_of_init_error (env : Env) (fn : WalkFunc) (fuel : Nat) (w : World)
    (root urlstr href : GoString) (E : LibErr)
    (hhref : env.Href [] = .ok (urlstr, href))
    (hinit : (Client.init env w (if hasSlashSuffix urlstr then urlstr else urlstr ++ [47])).1
      = some E) :
    Client.Walk env fn fuel w root
        = (Res.ret (if fn w.calls root none (some (Err.other E)) = some Err.SkipDir
                      ∨ fn w.calls root none (some (Err.other E)) = some Err.SkipAll
                    then none else fn w.calls root none (some (Err.other E))),
           { (Client.init env w (if hasSlashSuffix urlstr then urlstr else urlstr ++ [47])).2 with
             calls := w.calls ++ [{ path := root, item := none, err := some (Err.other E),
                                    ret := fn w.calls root none (some (Err.other E)) }] }) := by
  have hc := init_calls env w (if hasSlashSuffix urlstr then urlstr else urlstr ++ [47])
  generalize hg : Client.init env w (if hasSlashSuffix urlstr then urlstr else urlstr ++ [47]) = r
    at hinit hc ⊢
  obtain ⟨r1, w1⟩ := r
  simp only at hinit hc
  subst hinit
  simp only [Client.Walk, hhref, hg, callFn, logged, hc]
  split_ifs <;> rfl

/-- C7 (amended). When the handshake at the start of `Walk` fails with `E`, the
callback is invoked exactly once, with `(root, nil, E)`, nothing but the
handshake is sent, and `Walk` returns what the callback returned, except that
`SkipDir` and `SkipAll` become nil: nil for a callback returning nil,
`SkipDir` or `SkipAll`, and otherwise the error the callback returned. -/
theorem Walk_init_failure (env : Env) (fn : WalkFunc) (fuel : Nat) (w : World)
    (root urlstr href : GoString) (E : LibErr)
    (hhref : env.Href [] = .ok (urlstr, href))
    (hinit : (Client.init env w (if hasSlashSuffix urlstr then urlstr else urlstr ++ [47])).1
      = some E) :
    Client.Walk env fn fuel w root
        = (Res.ret (if fn w.calls root none (some (Err.other E)) = some Err.SkipDir
                      ∨ fn w.calls root none (some (Err.other E)) = some Err.SkipAll
                    then none else fn w.calls root none (some (Err.other E))),
           { (Client.init env w (if hasSlashSuffix urlstr then urlstr else urlstr ++ [47])).2 with
             calls := w.calls ++ [{ path := root, item := none, err := some (Err.other E),
                                    ret := fn w.calls root none (some (Err.other E)) }] })
      ∧ (∀ q ∈ (Client.Walk env fn fuel w root).2.reqs, q ∈ w.reqs ∨ q.body = Payload.setup) := by
  have hw := Walk_of_init_error env fn fuel w root urlstr href E hhref hinit
  refine ⟨hw, ?_⟩
  rw [hw]
  simp only
  intro q hq
  rcases init_reqs env w (if hasSlashSuffix urlstr then urlstr else urlstr ++ [47]) with h | h
  · rw [h] at hq; exact Or.inl hq
  · rw [h] at hq
    rcases List.mem_append.1 hq with h1 | h1
    · exact Or.inl h1
    · right
      rw [List.mem_singleton.1 h1]
      rfl

/-- C7 (amended), on an unreachable server with the callback of `TestWalk`:
one callback, one request, and the error handed back by the callback is the
result of `Walk`. -/
theorem Walk_init_failure_witness :
    Client.Walk downEnv testWalkFn 0 World.fresh (bytes "/")
      = (Res.ret (some (Err.other "connection refused")),
         { err := some "connection refused",
           reqs := [handshakeReq (bytes "https://h/demo/")],
           calls := [{ path := bytes "/", item := none,
                       err := some (Err.other "connection refused"),
                       ret := some (Err.other "connection refused") }] }) := by
  rw [(Walk_init_failure downEnv testWalkFn 0 World.fresh (bytes "/") (bytes "https://h/demo/")
    (bytes "/demo/") "connection refused" (by decide) (by decide)).1]
  decide

/-! ## Unfolding `Client.walk` -/

theorem walk_file (env : Env) (fn : WalkFunc) (fuel : Nat) (w : World) (item : Item)
    (hfile : item.IsDir = false) :
    Client.walk env fn (fuel + 1) w item
      = (Res.ret (fn w.calls item.Href (some item) none),
         { w with calls := w.calls ++ [{ path := item.Href, item := some item, err := none,
                                         ret := fn w.calls item.Href (some item) none }] }) := by
  simp [Client.walk, hfile, callFn, logged]

theorem walk_dir_error (env : Env) (fn : WalkFunc) (fuel : Nat) (w w1 : World) (D : Item)
    (urlstr href : GoString) (E : LibErr) (hdir : D.IsDir = true)
    (hhref : env.Href [] = .ok (urlstr, href))
    (hlist : Client.list env w urlstr D.Href true = (.error E, w1)) :
    Client.walk env fn (fuel + 1) w D
      = (Res.ret (fn w.calls D.Href (some D) (some (Err.other E))),
         { w1 with calls := w.calls ++ [{ path := D.Href, item := some D,
                                          err := some (Err.other E),
                                          ret := fn w.calls D.Href (some D) (some (Err.other E)) }] }) := by
  have hc : w1.calls = w.calls := by
    have := list_calls env w urlstr D.Href true
    rw [hlist] at this
    exact this
  simp [Client.walk, hdir, hhref, hlist, callFn, logged, hc, errOf]

theorem walk_dir_ok (env : Env) (fn : WalkFunc) (fuel : Nat) (w w1 : World) (D : Item)
    (urlstr href : GoString) (items : List Item) (hdir : D.IsDir = true)
    (hhref : env.Href [] = .ok (urlstr, href))
    (hlist : Client.list env w urlstr D.Href true = (.ok items, w1)) :
    Client.walk env fn (fuel + 1) w D
      = if fn w.calls D.Href (some D) none ≠ none then
          (Res.ret (fn w.calls D.Href (some D) none),
           { w1 with calls := w.calls ++ [{ path := D.Href, item := some D, err := none,
                                            ret := fn w.calls D.Href (some D) none }] })
        else
          walkLoop (Client.walk env fn fuel)
            { w1 with calls := w.calls ++ [{ path := D.Href, item := some D, err := none,
                                             ret := none }] } items := by
  have hc : w1.calls = w.calls := by
    have := list_calls env w urlstr D.Href true
    rw [hlist] at this
    exact this
  simp only [Client.walk, hdir, hhref, hlist, callFn, logged, hc, errOf, itemsOf]
  by_cases h : fn w.calls D.Href (some D) none = none
  · simp [h]
  · simp [h]

/-- C9 (as stated) fails: the listing of the root directory fails and the
callback returns nil; the visit then returns nil to its caller, so the listing
error is turned into a successful visit. -/
theorem nil_callback_swallows_listing_error :
    (Client.list brokenEnv World.fresh (bytes "https://h/demo/") (bytes "/demo/") true).1
        = .error "status != 200"
      ∧ (Client.walk brokenEnv nilFn 2 World.fresh (dirItem "/demo/")).1 = Res.ret none := by
  decide

/-- C9 (amended). For a directory item `D` whose listing fails with `E`, the
callback is invoked exactly once for `D`, with `(D.Href, D, E)`, no callback is
invoked for any descendant, and the visit returns to its caller exactly what
the callback returned: a non-nil value when the callback returns one, and nil
when the callback returns nil. -/
theorem walk_listing_failure (env : Env) (fn : WalkFunc) (fuel : Nat) (w : World) (D : Item)
    (urlstr href : GoString) (E : LibErr) (hdir : D.IsDir = true)
    (hhref : env.Href [] = .ok (urlstr, href))
    (hlist : (Client.list env w urlstr D.Href true).1 = .error E) :
    (Client.walk env fn (fuel + 1) w D).1
        = Res.ret (fn w.calls D.Href (some D) (some (Err.other E)))
      ∧ (Client.walk env fn (fuel + 1) w D).2.calls
        = w.calls ++ [{ path := D.Href, item := some D, err := some (Err.other E),
                        ret := fn w.calls D.Href (some D) (some (Err.other E)) }]
      ∧ (Client.walk env fn (fuel + 1) w D).2.reqs
        = (Client.list env w urlstr D.Href true).2.reqs := by
  have hl : Client.list env w urlstr D.Href true
      = (.error E, (Client.list env w urlstr D.Href true).2) := Prod.ext hlist rfl
  rw [walk_dir_error env fn fuel w _ D urlstr href E hdir hhref hl]
  exact ⟨rfl, rfl, rfl⟩

/-- C9 (amended), on a server that rejects listings, with the callback of
`TestWalk`: the visit of the directory returns the listing error handed back
by the callback, after a single callback. -/
theorem walk_listing_failure_witness :
    (Client.walk brokenEnv testWalkFn 1 World.fresh (dirItem "/demo/")).1
        = Res.ret (some (Err.other "status != 200"))
      ∧ (Client.walk brokenEnv testWalkFn 1 World.fresh (dirItem "/demo/")).2.calls
        = [{ path := bytes "/demo/", item := some (dirItem "/demo/"),
             err := some (Err.other "status != 200"),
             ret := some (Err.other "status != 200") }] := by
  have h := walk_listing_failure brokenEnv testWalkFn 0 World.fresh (dirItem "/demo/")
    (bytes "https://h/demo/") (bytes "/demo/") "status != 200" (by decide) (by decide) (by decide)
  exact ⟨h.1, h.2.1⟩

theorem walk_dir (env : Env) (fn : WalkFunc) (fuel : Nat) (w : World) (D : Item)
    (urlstr href : GoString) (hdir : D.IsDir = true)
    (hhref : env.Href [] = .ok (urlstr, href)) :
    Client.walk env fn (fuel + 1) w D
      = if errOf (Client.list env w urlstr D.Href true).1 ≠ none
            ∨ fn w.calls D.Href (some D) (errOf (Client.list env w urlstr D.Href true).1) ≠ none
        then
          (Res.ret (fn w.calls D.Href (some D) (errOf (Client.list env w urlstr D.Href true).1)),
           { (Client.list env w urlstr D.Href true).2 with
             calls := w.calls ++ [logged fn w.calls D.Href (some D)
               (errOf (Client.list env w urlstr D.Href true).1)] })
        else
          walkLoop (Client.walk env fn fuel)
            { (Client.list env w urlstr D.Href true).2 with
              calls := w.calls ++ [{ path := D.Href, item := some D, err := none, ret := none }] }
            (itemsOf (Client.list env w urlstr D.Href true).1) := by
  have hc := list_calls env w urlstr D.Href true
  simp only [Client.walk, hdir, hhref, callFn, logged, hc]
  by_cases h : errOf (Client.list env w urlstr D.Href true).1 ≠ none
      ∨ fn w.calls D.Href (some D) (errOf (Client.list env w urlstr D.Href true).1) ≠ none
  · simp only [if_pos h]
    simp
  · rw [if_neg h]
    have h1 := not_or.1 h
    have he : errOf (Client.list env w urlstr D.Href true).1 = none := not_not.1 h1.1
    have hr : fn w.calls D.Href (some D) (errOf (Client.list env w urlstr D.Href true).1) = none :=
      not_not.1 h1.2
    simp [h, he, hr]
    simp only [he] at hr
    simp [hr]

theorem walkLoop_cons_absorb (rec : World → Item → Res × World) (w w1 : World) (X : Item)
    (rest : List Item) (e : Option Err) (hX : rec w X = (Res.ret e, w1))
    (he : e = none ∨ e = some Err.SkipDir) :
    walkLoop rec w (X :: rest) = walkLoop rec w1 rest := by
  rcases he with rfl | rfl <;> simp [walkLoop, hX]

/-- C5. When the callback returns `SkipDir` for a directory item `X`, the
visit of `X` consists of that single callback (nothing in or below the listing
of `X` is visited) and returns `SkipDir`; the loop of the parent absorbs it and
goes on with the remaining siblings from the state reached after that
callback, which is the continuation any visit of `X` ending with nil in that
state (an empty directory with a callback returning nil) leads to; at the root
of a walk, `Walk` returns nil. -/
theorem walk_SkipDir (env : Env) (fn : WalkFunc) (fuel : Nat) (w : World) (X : Item)
    (urlstr href : GoString) (hdir : X.IsDir = true)
    (hhref : env.Href [] = .ok (urlstr, href))
    (hskip : fn w.calls X.Href (some X) (errOf (Client.list env w urlstr X.Href true).1)
      = some Err.SkipDir) :
    Client.walk env fn (fuel + 1) w X
        = (Res.ret (some Err.SkipDir),
           { (Client.list env w urlstr X.Href true).2 with
             calls := w.calls ++ [logged fn w.calls X.Href (some X)
               (errOf (Client.list env w urlstr X.Href true).1)] })
      ∧ (∀ rest, walkLoop (Client.walk env fn (fuel + 1)) w (X :: rest)
          = walkLoop (Client.walk env fn (fuel + 1))
              { (Client.list env w urlstr X.Href true).2 with
                calls := w.calls ++ [logged fn w.calls X.Href (some X)
                  (errOf (Client.list env w urlstr X.Href true).1)] } rest)
      ∧ (∀ (rec : World → Item → Res × World) rest,
          rec w X = (Res.ret none,
              { (Client.list env w urlstr X.Href true).2 with
                calls := w.calls ++ [logged fn w.calls X.Href (some X)
                  (errOf (Client.list env w urlstr X.Href true).1)] }) →
          walkLoop rec w (X :: rest)
            = walkLoop rec
                { (Client.list env w urlstr X.Href true).2 with
                  calls := w.calls ++ [logged fn w.calls X.Href (some X)
                    (errOf (Client.list env w urlstr X.Href true).1)] } rest)
      ∧ (∀ w0 root,
          Client.init env w0 (if hasSlashSuffix urlstr then urlstr else urlstr ++ [47]) = (none, w) →
          X = rootItem env (if hasSlashSuffix href then href else href ++ [47]) →
          Client.Walk env fn (fuel + 1) w0 root
            = (Res.ret none,
               { (Client.list env w urlstr X.Href true).2 with
                 calls := w.calls ++ [logged fn w.calls X.Href (some X)
                   (errOf (Client.list env w urlstr X.Href true).1)] })) := by
  have hw : Client.walk env fn (fuel + 1) w X
        = (Res.ret (some Err.SkipDir),
           { (Client.list env w urlstr X.Href true).2 with
             calls := w.calls ++ [logged fn w.calls X.Href (some X)
               (errOf (Client.list env w urlstr X.Href true).1)] }) := by
    rw [walk_dir env fn fuel w X urlstr href hdir hhref, if_pos (Or.inr (by rw [hskip]; simp)),
      hskip]
  refine ⟨hw, ?_, ?_, ?_⟩
  · intro rest
    exact walkLoop_cons_absorb _ w _ X rest _ hw (Or.inr rfl)
  · intro rec rest hrec
    exact walkLoop_cons_absorb _ w _ X rest _ hrec (Or.inl rfl)
  · intro w0 root hinit hX
    subst hX
    simp [Client.Walk, hhref, hinit, hw]

/-- C5 on the demo server: the callback returns `SkipDir` for `/demo/sub/`; the
visit of `sub/` is one callback, and the loop goes on to the sibling `a.txt`,
which is then the only further item handed to the callback. -/
theorem walk_SkipDir_witness :
    Client.walk demoEnv skipSubFn 1 World.fresh (dirItem "/demo/sub/")
        = (Res.ret (some Err.SkipDir),
           { err := none, reqs := listingReqs (bytes "https://h/demo/") (bytes "/demo/sub/"),
             calls := [{ path := bytes "/demo/sub/", item := some (dirItem "/demo/sub/"),
                         err := none, ret := some Err.SkipDir }] })
      ∧ (walkLoop (Client.walk demoEnv skipSubFn 1) World.fresh
          [dirItem "/demo/sub/", fileItem "/demo/a.txt" 5]).2.calls.map Call.path
        = [bytes "/demo/sub/", bytes "/demo/a.txt"] := by
  have h := walk_SkipDir demoEnv skipSubFn 0 World.fresh (dirItem "/demo/sub/")
    (bytes "https://h/demo") (bytes "/demo") (by decide) (by decide) (by decide)
  constructor
  · rw [h.1]; decide
  · rw [h.2.1]; decide

/-! ## `SkipAll` -/

theorem SkipAllLast_split (r : Res) (new pre post : List Call) (c : Call)
    (h : SkipAllLast r new) (hnew : new = pre ++ c :: post) (hc : c.ret = some Err.SkipAll) :
    post = [] ∧ r = Res.ret (some Err.SkipAll) := by
  rcases h with h | ⟨pre1, c1, h1, hpre1, _, hr⟩
  · exact absurd hc (h c (by rw [hnew]; simp))
  · by_cases hp : post = []
    · exact ⟨hp, hr⟩
    · exfalso
      have hd : (pre ++ c :: post).dropLast = pre1 := by
        rw [← hnew, h1, List.dropLast_concat]
      have hmem : c ∈ pre1 := by
        rw [← hd, List.dropLast_append_of_ne_nil _ (by simp), List.dropLast_cons_of_ne_nil hp]
        simp
      exact hpre1 c hmem hc

theorem SkipAllLast_single (c : Call) : SkipAllLast (Res.ret c.ret) [c] := by
  by_cases h : c.ret = some Err.SkipAll
  · exact Or.inr ⟨[], c, rfl, fun x hx => (by cases hx), h, by rw [h]⟩
  · left
    intro x hx
    rw [List.mem_singleton.1 hx]
    exact h

theorem SkipAllLast_cons (r : Res) (c : Call) (new : List Call) (hc : c.ret ≠ some Err.SkipAll)
    (h : SkipAllLast r new) : SkipAllLast r (c :: new) := by
  rcases h with h | ⟨pre, c1, h1, hpre, hc1, hr⟩
  · left
    intro x hx
    rcases List.mem_cons.1 hx with rfl | hx
    · exact hc
    · exact h x hx
  · right
    refine ⟨c :: pre, c1, by rw [h1]; rfl, ?_, hc1, hr⟩
    intro x hx
    rcases List.mem_cons.1 hx with rfl | hx
    · exact hc
    · exact hpre x hx

theorem SkipAllLast_append (r : Res) (new1 new2 : List Call) (h1 : NoSkipAll new1)
    (h : SkipAllLast r new2) : SkipAllLast r (new1 ++ new2) := by
  induction new1 with
  | nil => exact h
  | cons c l ih =>
    exact SkipAllLast_cons r c _ (h1 c (List.mem_cons_self _ _))
      (ih (fun x hx => h1 x (List.mem_cons_of_mem _ hx)))

theorem walkLoop_SkipAllLast (rec : World → Item → Res × World)
    (hrec : ∀ w item, ∃ new, (rec w item).2.calls = w.calls ++ new
      ∧ SkipAllLast (rec w item).1 new)
    (items : List Item) (w : World) :
    ∃ new, (walkLoop rec w items).2.calls = w.calls ++ new
      ∧ SkipAllLast (walkLoop rec w items).1 new := by
  induction items generalizing w with
  | nil => exact ⟨[], by simp [walkLoop], Or.inl (by intro x hx; cases hx)⟩
  | cons x rest ih =>
    obtain ⟨new1, hcalls, hlast⟩ := hrec w x
    generalize hg : rec w x = rw1 at hcalls hlast
    obtain ⟨r1, w1⟩ := rw1
    simp only at hcalls hlast
    cases r1 with
    | outOfFuel => exact ⟨new1, by simp [walkLoop, hg, hcalls], by simpa [walkLoop, hg] using hlast⟩
    | ret err =>
      by_cases hstop : err ≠ none ∧ err ≠ some Err.SkipDir
      · exact ⟨new1, by simp [walkLoop, hg, hstop, hcalls],
          by simpa [walkLoop, hg, hstop] using hlast⟩
      · have hloop : walkLoop rec w (x :: rest) = walkLoop rec w1 rest := by
          simp only [walkLoop, hg, if_neg hstop]
        have hno : NoSkipAll new1 := by
          rcases hlast with h | ⟨_, _, _, _, _, hr⟩
          · exact h
          · exfalso
            apply hstop
            cases hr
            exact ⟨by simp, by simp⟩
        obtain ⟨new2, hcalls2, hlast2⟩ := ih w1
        refine ⟨new1 ++ new2, ?_, ?_⟩
        · rw [hloop, hcalls2, hcalls, List.append_assoc]
        · rw [hloop]
          exact SkipAllLast_append _ new1 new2 hno hlast2

theorem walk_SkipAllLast (env : Env) (fn : WalkFunc) (fuel : Nat) (w : World) (item : Item) :
    ∃ new, (Client.walk env fn fuel w item).2.calls = w.calls ++ new
      ∧ SkipAllLast (Client.walk env fn fuel w item).1 new := by
  induction fuel generalizing w item with
  | zero => exact ⟨[], by simp [Client.walk], Or.inl (by intro x hx; cases hx)⟩
  | succ fuel ih =>
    by_cases hdir : item.IsDir = true
    · cases hhref : env.Href [] with
      | error e =>
        refine ⟨[], by simp [Client.walk, hdir, hhref], ?_⟩
        simp only [Client.walk, hdir, hhref]
        exact Or.inl (by intro x hx; cases hx)
      | ok p =>
        obtain ⟨urlstr, href⟩ := p
        rw [walk_dir env fn fuel w item urlstr href hdir hhref]
        split_ifs with hc
        · exact ⟨[logged fn w.calls item.Href (some item)
            (errOf (Client.list env w urlstr item.Href true).1)], rfl, SkipAllLast_single _⟩
        · obtain ⟨new2, hcalls2, hlast2⟩ := walkLoop_SkipAllLast (Client.walk env fn fuel) ih
            (itemsOf (Client.list env w urlstr item.Href true).1)
            { (Client.list env w urlstr item.Href true).2 with
              calls := w.calls ++ [{ path := item.Href, item := some item, err := none, ret := none }] }
          refine ⟨{ path := item.Href, item := some item, err := none, ret := none } :: new2, ?_, ?_⟩
          · rw [hcalls2]; simp
          · exact SkipAllLast_cons _ _ _ (by simp) hlast2
    · have hfile : item.IsDir = false := by simpa using hdir
      rw [walk_file env fn fuel w item hfile]
      exact ⟨[logged fn w.calls item.Href (some item) none], rfl, SkipAllLast_single _⟩

/-- C6. In every run, of any recursion budget: if some callback invocation
returns `SkipAll`, no callback is invoked after it, every recursive call of
`Client.walk` whose visit contains that invocation returns `SkipAll` itself,
and the `Walk` call returns nil. -/
theorem SkipAll_ends_walk (env : Env) (fn : WalkFunc) (fuel : Nat) (w : World) :
    (∀ item pre c post,
        (Client.walk env fn fuel w item).2.calls = w.calls ++ (pre ++ c :: post) →
        c.ret = some Err.SkipAll →
        post = [] ∧ (Client.walk env fn fuel w item).1 = Res.ret (some Err.SkipAll))
      ∧ (∀ root pre c post,
        (Client.Walk env fn fuel w root).2.calls = w.calls ++ (pre ++ c :: post) →
        c.ret = some Err.SkipAll →
        post = [] ∧ (Client.Walk env fn fuel w root).1 = Res.ret none) := by
  constructor
  · intro item pre c post hlog hc
    obtain ⟨new, hcalls, hlast⟩ := walk_SkipAllLast env fn fuel w item
    rw [hcalls] at hlog
    exact SkipAllLast_split _ new pre post c hlast (List.append_cancel_left hlog) hc
  · intro root pre c post hlog hc
    unfold Client.Walk at hlog ⊢
    cases hhref : env.Href [] with
    | error e =>
      simp only [hhref] at hlog
      have := List.append_cancel_left (hlog.symm.trans (List.append_nil _).symm)
      simp at this
    | ok p =>
      obtain ⟨urlstr, href⟩ := p
      simp only [hhref] at hlog ⊢
      have hic := init_calls env w (if hasSlashSuffix urlstr then urlstr else urlstr ++ [47])
      generalize Client.init env w (if hasSlashSuffix urlstr then urlstr else urlstr ++ [47]) = r
        at hlog hic ⊢
      obtain ⟨r1, w1⟩ := r
      simp only at hic
      cases r1 with
      | some e =>
        simp only [callFn, hic] at hlog ⊢
        have h1 : [logged fn w.calls root none (some (Err.other e))] = pre ++ c :: post := by
          split at hlog <;> exact List.append_cancel_left hlog
        have hpre : pre = [] := by
          cases pre with
          | nil => rfl
          | cons a l => simp at h1
        subst hpre
        simp only [List.nil_append, List.cons.injEq] at h1
        obtain ⟨h2, h3⟩ := h1
        subst h2
        have hret : fn w.calls root none (some (Err.other e)) = some Err.SkipAll := hc
        exact ⟨h3.symm, by simp [hret]⟩
      | none =>
        simp only at hlog ⊢
        obtain ⟨new, hcalls, hlast⟩ :=
          walk_SkipAllLast env fn fuel w1 (rootItem env (if hasSlashSuffix href then href else href ++ [47]))
        have hlog2 : (Client.walk env fn fuel w1
            (rootItem env (if hasSlashSuffix href then href else href ++ [47]))).2.calls
              = w.calls ++ (pre ++ c :: post) := by
          split at hlog <;> first | exact hlog | (split at hlog <;> exact hlog)
        rw [hcalls, hic] at hlog2
        obtain ⟨hp, hr⟩ := SkipAllLast_split _ new pre post c hlast (List.append_cancel_left hlog2) hc
        refine ⟨hp, ?_⟩
        rw [hr]
        simp

/-- C6 on the demo server: the callback returns `SkipAll` for `/demo/a.txt`,
the second item visited; it is the last invocation (the sibling `sub/` is not
visited) and `Walk` returns nil. -/
theorem SkipAll_ends_walk_witness :
    (Client.Walk demoEnv skipAllFn 5 World.fresh (bytes "/")).2.calls
        = [] ++ ([{ path := bytes "/demo/", item := some (rootItem demoEnv (bytes "/demo/")),
                    err := none, ret := none }]
                 ++ { path := bytes "/demo/a.txt", item := some (fileItem "/demo/a.txt" 5),
                      err := none, ret := some Err.SkipAll } :: [])
      ∧ (Client.Walk demoEnv skipAllFn 5 World.fresh (bytes "/")).1 = Res.ret none :=
  ⟨by decide,
   ((SkipAll_ends_walk demoEnv skipAllFn 5 World.fresh).2 (bytes "/")
      [{ path := bytes "/demo/", item := some (rootItem demoEnv (bytes "/demo/")),
         err := none, ret := none }]
      { path := bytes "/demo/a.txt", item := some (fileItem "/demo/a.txt" 5),
        err := none, ret := some Err.SkipAll } [] (by decide) rfl).2⟩

/-! ## Parents and children in the callback log -/

theorem filterLoop_mem (env : Env) (h : GoString) (R acc out : List Item)
    (hout : filterLoop env h R acc = .ok out) (C : Item) (hC : C ∈ out) :
    C ∈ acc ∨ (C.Href ≠ h ∧ h <+: C.Href) := by
  induction R generalizing acc with
  | nil =>
    simp only [filterLoop, Except.ok.injEq] at hout
    subst hout
    exact Or.inl hC
  | cons it rest ih =>
    unfold filterLoop at hout
    cases hd : env.PathUnescape it.Href with
    | error e => simp [hd] at hout
    | ok d =>
      simp only [hd] at hout
      by_cases hc : d ≠ h ∧ HasPrefix d h = true
      · rw [if_pos hc] at hout
        rcases ih _ hout with h1 | h1
        · rcases List.mem_append.1 h1 with h2 | h2
          · exact Or.inl h2
          · right
            rw [List.mem_singleton.1 h2]
            exact ⟨hc.1, List.isPrefixOf_iff_prefix.1 hc.2⟩
        · exact Or.inr h1
      · rw [if_neg hc] at hout
        exact ih _ hout

theorem list_filtered_ChildOf (env : Env) (w w1 : World) (urlstr : GoString) (D : Item)
    (items : List Item) (hlist : Client.list env w urlstr D.Href true = (.ok items, w1))
    (C : Item) (hC : C ∈ items) : ChildOf env D C := by
  unfold Client.list at hlist
  simp only [] at hlist
  generalize Client.Do env w "POST" (if hasSlashSuffix urlstr then urlstr else urlstr ++ [47])
    (Payload.items D.Href) true = r at hlist
  obtain ⟨r1, w2⟩ := r
  cases r1 with
  | error e => simp at hlist
  | ok R =>
    simp only [Bool.true_eq_false, if_false] at hlist
    cases hh : env.PathUnescape D.Href with
    | error e => simp [hh] at hlist
    | ok h =>
      simp only [hh, Prod.mk.injEq] at hlist
      rcases filterLoop_mem env h R [] items hlist.1 C hC with h1 | ⟨h1, h2⟩
      · cases h1
      · refine ⟨h, hh, h1, h2, ?_⟩
        rcases Nat.lt_or_ge h.length C.Href.length with h3 | h3
        · exact h3
        · exact absurd (h2.eq_of_length (Nat.le_antisymm h2.length_le h3)).symm h1

theorem walkLoop_ChildTraces (env : Env) (rec : World → Item → Res × World)
    (hrec : ∀ w C, ∃ tr, (rec w C).2.calls = w.calls ++ tr ∧ (tr = [] ∨ WalkTrace env C tr))
    (D : Item) (items : List Item) (hitems : ∀ C ∈ items, ChildOf env D C) (w : World) :
    ∃ tr, (walkLoop rec w items).2.calls = w.calls ++ tr ∧ ChildTraces env D tr := by
  induction items generalizing w with
  | nil => exact ⟨[], by simp [walkLoop], ChildTraces.done D⟩
  | cons x rest ih =>
    obtain ⟨tr1, hcalls, htr1⟩ := hrec w x
    have hx : ChildOf env D x := hitems x (List.mem_cons_self _ _)
    have hone : ∀ tr2, ChildTraces env D tr2 → ChildTraces env D (tr1 ++ tr2) := by
      intro tr2 h2
      rcases htr1 with h | h
      · rw [h]; exact h2
      · exact ChildTraces.child D x tr1 tr2 hx h h2
    generalize hg : rec w x = rw1 at hcalls
    obtain ⟨r1, w1⟩ := rw1
    simp only at hcalls
    have hstop : ChildTraces env D tr1 := by
      have := hone [] (ChildTraces.done D)
      simpa using this
    cases r1 with
    | outOfFuel => exact ⟨tr1, by simp [walkLoop, hg, hcalls], hstop⟩
    | ret err =>
      by_cases hs : err ≠ none ∧ err ≠ some Err.SkipDir
      · exact ⟨tr1, by simp [walkLoop, hg, hs, hcalls], hstop⟩
      · have hloop : walkLoop rec w (x :: rest) = walkLoop rec w1 rest := by
          simp only [walkLoop, hg, if_neg hs]
        obtain ⟨tr2, hcalls2, htr2⟩ :=
          ih (fun C hC => hitems C (List.mem_cons_of_mem _ hC)) w1
        exact ⟨tr1 ++ tr2, by rw [hloop, hcalls2, hcalls, List.append_assoc], hone tr2 htr2⟩

theorem itemsOf_list_ChildOf (env : Env) (w : World) (urlstr : GoString) (D : Item) (C : Item)
    (hC : C ∈ itemsOf (Client.list env w urlstr D.Href true).1) : ChildOf env D C := by
  cases hl : (Client.list env w urlstr D.Href true).1 with
  | error e => simp [hl, itemsOf] at hC
  | ok items =>
    simp only [hl, itemsOf] at hC
    exact list_filtered_ChildOf env w _ urlstr D items (Prod.ext hl rfl) C hC

theorem walk_WalkTrace_or_nil (env : Env) (fn : WalkFunc) (fuel : Nat) (w : World) (D : Item) :
    ∃ tr, (Client.walk env fn fuel w D).2.calls = w.calls ++ tr
      ∧ (tr = [] ∨ WalkTrace env D tr) := by
  induction fuel generalizing w D with
  | zero => exact ⟨[], by simp [Client.walk], Or.inl rfl⟩
  | succ fuel ih =>
    by_cases hdir : D.IsDir = true
    · cases hhref : env.Href [] with
      | error e => exact ⟨[], by simp [Client.walk, hdir, hhref], Or.inl rfl⟩
      | ok p =>
        obtain ⟨urlstr, href⟩ := p
        rw [walk_dir env fn fuel w D urlstr href hdir hhref]
        split_ifs with hc
        · exact ⟨[logged fn w.calls D.Href (some D)
            (errOf (Client.list env w urlstr D.Href true).1)], rfl,
            Or.inr (WalkTrace.visit D _ [] rfl rfl (ChildTraces.done D))⟩
        · obtain ⟨tr, hcalls, htr⟩ := walkLoop_ChildTraces env (Client.walk env fn fuel) ih D
            (itemsOf (Client.list env w urlstr D.Href true).1)
            (fun C hC => itemsOf_list_ChildOf env w urlstr D C hC)
            { (Client.list env w urlstr D.Href true).2 with
              calls := w.calls ++ [{ path := D.Href, item := some D, err := none, ret := none }] }
          refine ⟨{ path := D.Href, item := some D, err := none, ret := none } :: tr, ?_,
            Or.inr (WalkTrace.visit D _ tr rfl rfl htr)⟩
          rw [hcalls]; simp
    · have hfile : D.IsDir = false := by simpa using hdir
      rw [walk_file env fn fuel w D hfile]
      exact ⟨[logged fn w.calls D.Href (some D) none], rfl,
        Or.inr (WalkTrace.visit D _ [] rfl rfl (ChildTraces.done D))⟩

/-- C10 (as stated) fails: the root directory `/a%20b/` lists `x`; the
callback receives the root item with href `/a%20b/` and then its child with
the decoded href `/a b/x`, of which the root href is not a prefix and which is
not longer than the root href. -/
theorem child_href_not_below_parent_href :
    (Client.list spaceEnv World.fresh (bytes "https://h/a%20b/") (bytes "/a%20b/") true).1
        = .ok [fileItem "/a b/x" 1]
      ∧ (Client.Walk spaceEnv nilFn 3 World.fresh (bytes "/")).2.calls
        = [{ path := bytes "/a%20b/", item := some (rootItem spaceEnv (bytes "/a%20b/")),
             err := none, ret := none },
           { path := bytes "/a b/x", item := some (fileItem "/a b/x" 1),
             err := none, ret := none }]
      ∧ ¬ ((rootItem spaceEnv (bytes "/a%20b/")).Href <+: (fileItem "/a b/x" 1).Href)
      ∧ ¬ ((rootItem spaceEnv (bytes "/a%20b/")).Href.length < (fileItem "/a b/x" 1).Href.length) := by
  decide

/-- C10 (amended). In every run, the callback invocations of a visit form a
pre-order: first the visited item `D`, then the visits of members `C` of the
filtered listing of `D`; for each such pair the href of `C` differs from the
percent-decoded href of `D`, has the percent-decoded href of `D` as a proper
prefix and is strictly longer than it.  This holds for every recursive visit
and for `Walk`, whose first item is the synthesized root item. -/
theorem walk_children_below_decoded_parent (env : Env) (fn : WalkFunc) (fuel : Nat) (w : World)
    (urlstr href : GoString) (hhref : env.Href [] = .ok (urlstr, href)) :
    (∀ D, ∃ tr, (Client.walk env fn (fuel + 1) w D).2.calls = w.calls ++ tr
        ∧ WalkTrace env D tr)
      ∧ (∀ root,
          (Client.init env w (if hasSlashSuffix urlstr then urlstr else urlstr ++ [47])).1 = none →
          ∃ tr, (Client.Walk env fn (fuel + 1) w root).2.calls = w.calls ++ tr
            ∧ WalkTrace env (rootItem env (if hasSlashSuffix href then href else href ++ [47])) tr) := by
  have hwalk : ∀ w D, ∃ tr, (Client.walk env fn (fuel + 1) w D).2.calls = w.calls ++ tr
        ∧ WalkTrace env D tr := by
    intro w D
    obtain ⟨tr, hcalls, htr⟩ := walk_WalkTrace_or_nil env fn (fuel + 1) w D
    rcases htr with h | h
    · exfalso
      subst h
      by_cases hdir : D.IsDir = true
      · rw [walk_dir env fn fuel w D urlstr href hdir hhref] at hcalls
        split_ifs at hcalls with hc
        · have := List.append_cancel_left hcalls
          simp at this
        · obtain ⟨new, hnew, _⟩ := walkLoop_ChildTraces env (Client.walk env fn fuel)
            (walk_WalkTrace_or_nil env fn fuel) D
            (itemsOf (Client.list env w urlstr D.Href true).1)
            (fun C hC => itemsOf_list_ChildOf env w urlstr D C hC)
            { (Client.list env w urlstr D.Href true).2 with
              calls := w.calls ++ [{ path := D.Href, item := some D, err := none, ret := none }] }
          rw [hnew] at hcalls
          simp only [List.append_assoc] at hcalls
          have := List.append_cancel_left hcalls
          simp at this
      · have hfile : D.IsDir = false := by simpa using hdir
        rw [walk_file env fn fuel w D hfile] at hcalls
        have := List.append_cancel_left hcalls
        simp at this
    · exact ⟨tr, hcalls, h⟩
  refine ⟨hwalk w, ?_⟩
  intro root hinit
  have hic := init_calls env w (if hasSlashSuffix urlstr then urlstr else urlstr ++ [47])
  generalize hg : Client.init env w (if hasSlashSuffix urlstr then urlstr else urlstr ++ [47]) = r
    at hinit hic
  obtain ⟨r1, w1⟩ := r
  simp only at hinit hic
  subst hinit
  obtain ⟨tr, hcalls, htr⟩ :=
    hwalk w1 (rootItem env (if hasSlashSuffix href then href else href ++ [47]))
  refine ⟨tr, ?_, htr⟩
  rw [← hic, ← hcalls]
  simp only [Client.Walk, hhref, hg]
  split
  · rfl
  · split <;> rfl

/-- C10 (amended), on the server whose root is `/a%20b/`: the two callback
invocations are the root item and its child `/a b/x`, which lies below the
decoded root href `/a b/`. -/
theorem walk_children_below_decoded_parent_witness :
    WalkTrace spaceEnv (rootItem spaceEnv (bytes "/a%20b/"))
      [{ path := bytes "/a%20b/", item := some (rootItem spaceEnv (bytes "/a%20b/")),
         err := none, ret := none },
       { path := bytes "/a b/x", item := some (fileItem "/a b/x" 1), err := none, ret := none }] := by
  obtain ⟨tr, h1, h2⟩ := (walk_children_below_decoded_parent spaceEnv nilFn 2 World.fresh
    (bytes "https://h/a%20b/") (bytes "/a%20b/") (by decide)).2 (bytes "/") (by decide)
  have hlog : (Client.Walk spaceEnv nilFn 3 World.fresh (bytes "/")).2.calls
      = [{ path := bytes "/a%20b/", item := some (rootItem spaceEnv (bytes "/a%20b/")),
           err := none, ret := none },
         { path := bytes "/a b/x", item := some (fileItem "/a b/x" 1), err := none, ret := none }] := by
    decide
  rw [hlog] at h1
  rw [show World.fresh.calls = [] from rfl, List.nil_append] at h1
  rw [h1]
  exact h2

/-! ## Listings under a fixed assignment of responses -/

theorem do_fst_fixed (env : Env) (hfix : FixedTransport env) (w w1 : World) (m : String)
    (u : GoString) (p : Payload) (d : Bool) :
    (Client.do env w m u p d).1 = (Client.do env w1 m u p d).1 := by
  unfold Client.do
  cases env.NewRequest m u with
  | some e => rfl
  | none =>
    simp only []
    rw [hfix w.reqs, hfix w1.reqs]
    cases env.RoundTrip [] { method := m, url := u, body := p } with
    | error e => rfl
    | ok res => simp only []; split_ifs <;> rfl

theorem init_fst_fixed (env : Env) (hfix : FixedTransport env) (w w1 : World) (u : GoString)
    (hw : w.err = none) (hw1 : w1.err = none) :
    (Client.init env w u).1 = (Client.init env w1 u).1 := by
  rw [init_of_ok env w u hw, init_of_ok env w1 u hw1]
  have h := do_fst_fixed env hfix w w1 "POST" (initURL u) Payload.setup false
  generalize Client.do env w "POST" (initURL u) Payload.setup false = a at h
  generalize Client.do env w1 "POST" (initURL u) Payload.setup false = b at h
  obtain ⟨a1, a2⟩ := a
  obtain ⟨b1, b2⟩ := b
  simp only at h
  subst h
  cases a1 <;> rfl

theorem Do_fst_fixed (env : Env) (hfix : FixedTransport env) (w w1 : World) (m : String)
    (u : GoString) (p : Payload) (d : Bool) (hw : w.err = none) (hw1 : w1.err = none) :
    (Client.Do env w m u p d).1 = (Client.Do env w1 m u p d).1 := by
  unfold Client.Do
  have h := init_fst_fixed env hfix w w1 u hw hw1
  generalize Client.init env w u = a at h
  generalize Client.init env w1 u = b at h
  obtain ⟨a1, a2⟩ := a
  obtain ⟨b1, b2⟩ := b
  simp only at h
  subst h
  cases a1 with
  | some e => rfl
  | none => exact do_fst_fixed env hfix a2 b2 m u p d

theorem list_fst_fixed (env : Env) (hfix : FixedTransport env) (w w1 : World)
    (u href : GoString) (f : Bool) (hw : w.err = none) (hw1 : w1.err = none) :
    (Client.list env w u href f).1 = (Client.list env w1 u href f).1 := by
  unfold Client.list
  simp only []
  have h := Do_fst_fixed env hfix w w1 "POST" (if hasSlashSuffix u then u else u ++ [47])
    (Payload.items href) true hw hw1
  generalize Client.Do env w "POST" (if hasSlashSuffix u then u else u ++ [47])
    (Payload.items href) true = a at h
  generalize Client.Do env w1 "POST" (if hasSlashSuffix u then u else u ++ [47])
    (Payload.items href) true = b at h
  obtain ⟨a1, a2⟩ := a
  obtain ⟨b1, b2⟩ := b
  simp only at h
  subst h
  cases a1 with
  | error e => rfl
  | ok R =>
    simp only []
    split_ifs
    · rfl
    · cases env.PathUnescape href <;> rfl

theorem do_ok_world (env : Env) (w w1 : World) (m : String) (u : GoString) (p : Payload)
    (d : Bool) (x : List Item) (h : Client.do env w m u p d = (.ok x, w1)) :
    w1 = { w with reqs := w.reqs ++ [{ method := m, url := u, body := p }] } := by
  unfold Client.do at h
  revert h
  cases env.NewRequest m u with
  | some e => intro h; simp at h
  | none =>
    simp only []
    cases env.RoundTrip w.reqs { method := m, url := u, body := p } with
    | error e => intro h; simp at h
    | ok res =>
      simp only []
      split_ifs <;> (intro h; simp only [Prod.mk.injEq] at h; exact h.2.symm)

theorem init_none_world (env : Env) (w w1 : World) (u : GoString)
    (h : Client.init env w u = (none, w1)) :
    w1 = { err := none, reqs := w.reqs ++ [handshakeReq u], calls := w.calls } := by
  unfold Client.init at h
  revert h
  split
  · intro h; simp at h
  · rename_i hw
    have hd := do_ok_world env w (Client.do env w "POST" (initURL u) Payload.setup false).2
      "POST" (initURL u) Payload.setup false
    generalize Client.do env w "POST" (initURL u) Payload.setup false = a at hd
    obtain ⟨a1, a2⟩ := a
    cases a1 with
    | error e => intro h; simp at h
    | ok x =>
      intro h
      simp only [Prod.mk.injEq, true_and] at h
      have h4 := hd x rfl
      simp only at h4
      rw [← h, h4]
      rfl

theorem Do_ok_world (env : Env) (w w1 : World) (m : String) (u : GoString) (p : Payload)
    (d : Bool) (x : List Item) (h : Client.Do env w m u p d = (.ok x, w1)) :
    w1 = { err := none,
           reqs := w.reqs ++ [handshakeReq u, { method := m, url := u, body := p }],
           calls := w.calls } := by
  unfold Client.Do at h
  have hi := init_none_world env w (Client.init env w u).2 u
  generalize Client.init env w u = a at h hi
  obtain ⟨a1, a2⟩ := a
  cases a1 with
  | some e => simp at h
  | none =>
    simp only at h
    have h2 := do_ok_world env a2 w1 m u p d x h
    have h4 := hi rfl
    simp only at h4
    rw [h2, h4]
    simp

theorem list_ok_world (env : Env) (w w1 : World) (u href : GoString) (f : Bool)
    (x : List Item) (h : Client.list env w u href f = (.ok x, w1)) :
    w1 = { err := none,
           reqs := w.reqs ++ listingReqs (if hasSlashSuffix u then u else u ++ [47]) href,
           calls := w.calls } := by
  unfold Client.list at h
  simp only [] at h
  have hd := Do_ok_world env w (Client.Do env w "POST" (if hasSlashSuffix u then u else u ++ [47])
    (Payload.items href) true).2 "POST" (if hasSlashSuffix u then u else u ++ [47])
    (Payload.items href) true
  generalize Client.Do env w "POST" (if hasSlashSuffix u then u else u ++ [47])
    (Payload.items href) true = a at h hd
  obtain ⟨a1, a2⟩ := a
  cases a1 with
  | error e => simp at h
  | ok R =>
    have h3 : a2 = w1 := by
      revert h
      simp only []
      split_ifs
      · intro h; exact (Prod.mk.inj h).2
      · cases env.PathUnescape href with
        | error e => intro h; simp at h
        | ok hh => intro h; exact (Prod.mk.inj h).2
    have h4 := hd R rfl
    simp only at h4
    rw [← h3, h4]
    rfl

/-! ## Walking a served tree -/

theorem firstErr_append (a b : List (Item × Option LibErr)) :
    firstErr (a ++ b) = (firstErr a).or (firstErr b) := by
  simp [firstErr, List.filterMap_append, List.head?_append]

theorem upToFirstErr_append_of_none (a b : List (Item × Option LibErr))
    (h : firstErr a = none) : upToFirstErr (a ++ b) = a ++ upToFirstErr b := by
  induction a with
  | nil => rfl
  | cons x l ih =>
    obtain ⟨i, o⟩ := x
    cases o with
    | some e => simp [firstErr] at h
    | none =>
      have hl : firstErr l = none := by simpa [firstErr] using h
      simp [upToFirstErr, ih hl]

theorem upToFirstErr_append_of_some (a b : List (Item × Option LibErr)) (e : LibErr)
    (h : firstErr a = some e) : upToFirstErr (a ++ b) = upToFirstErr a := by
  induction a with
  | nil => simp [firstErr] at h
  | cons x l ih =>
    obtain ⟨i, o⟩ := x
    cases o with
    | some e1 => simp [upToFirstErr]
    | none =>
      have hl : firstErr l = some e := by simpa [firstErr] using h
      simp [upToFirstErr, ih hl]

theorem upToFirstErr_of_none (a : List (Item × Option LibErr)) (h : firstErr a = none) :
    upToFirstErr a = a := by
  have := upToFirstErr_append_of_none a [] h
  simpa [upToFirstErr] using this

theorem height_le_heightList (c : Tree) (ts : List Tree) (hc : c ∈ ts) :
    c.height ≤ heightList ts := by
  induction ts with
  | nil => cases hc
  | cons t ts ih =>
    rcases List.mem_cons.1 hc with rfl | h
    · simp [heightList]
    · have := ih h
      simp only [heightList]
      omega

theorem dirReqs_append (u : GoString) (a b : List (Item × Option LibErr)) :
    dirReqs u (a ++ b) = dirReqs u a ++ dirReqs u b := by
  simp [dirReqs, List.filter_append, List.flatMap_append]

theorem firstErr_eq_none_iff (l : List (Item × Option LibErr)) :
    firstErr l = none ↔ ∀ x ∈ l, x.2 = none := by
  induction l with
  | nil => simp [firstErr]
  | cons x l ih =>
    obtain ⟨i, o⟩ := x
    cases o with
    | some e => simp [firstErr]
    | none =>
      have : firstErr ((i, none) :: l) = firstErr l := by simp [firstErr]
      rw [this, ih]
      simp

theorem walkLoop_forest (env : Env) (fn : WalkFunc) (U : GoString) (fuel : Nat)
    (ts : List Tree)
    (hts : ∀ pre c post, ts = pre ++ c :: post → (∀ x ∈ preorderList pre, x.2 = none) →
      ∀ w, w.err = none →
      (Client.walk env fn fuel w c.item).1 = Res.ret ((firstErr c.preorder).map Err.other)
      ∧ (Client.walk env fn fuel w c.item).2.calls
          = w.calls ++ (upToFirstErr c.preorder).map visitCall
      ∧ (firstErr c.preorder = none →
          (Client.walk env fn fuel w c.item).2.err = none
          ∧ (Client.walk env fn fuel w c.item).2.reqs = w.reqs ++ dirReqs U c.preorder))
    (w : World) (hw : w.err = none) :
    (walkLoop (Client.walk env fn fuel) w (ts.map Tree.item)).1
        = Res.ret ((firstErr (preorderList ts)).map Err.other)
      ∧ (walkLoop (Client.walk env fn fuel) w (ts.map Tree.item)).2.calls
          = w.calls ++ (upToFirstErr (preorderList ts)).map visitCall
      ∧ (firstErr (preorderList ts) = none →
          (walkLoop (Client.walk env fn fuel) w (ts.map Tree.item)).2.err = none
          ∧ (walkLoop (Client.walk env fn fuel) w (ts.map Tree.item)).2.reqs
              = w.reqs ++ dirReqs U (preorderList ts)) := by
  induction ts generalizing w with
  | nil => simp [walkLoop, preorderList, firstErr, upToFirstErr, dirReqs, hw]
  | cons t ts ih =>
    obtain ⟨h1, h2, h3⟩ := hts [] t ts rfl (by simp [preorderList]) w hw
    generalize hg : Client.walk env fn fuel w t.item = r at h1 h2 h3
    obtain ⟨r1, w1⟩ := r
    simp only at h1 h2 h3
    subst h1
    simp only [List.map_cons, walkLoop, hg, preorderList]
    cases hfe : firstErr t.preorder with
    | some e =>
      have hstop : (some (Err.other e) : Option Err) ≠ none
          ∧ (some (Err.other e) : Option Err) ≠ some Err.SkipDir := by simp
      simp only [Option.map_some', if_pos hstop, firstErr_append, hfe, Option.or_some,
        upToFirstErr_append_of_some _ _ e hfe, h2, true_and]
      intro h
      cases h
    | none =>
      obtain ⟨h4, h5⟩ := h3 hfe
      have hts1 : ∀ pre c post, ts = pre ++ c :: post →
          (∀ x ∈ preorderList pre, x.2 = none) → ∀ w, w.err = none →
          (Client.walk env fn fuel w c.item).1 = Res.ret ((firstErr c.preorder).map Err.other)
          ∧ (Client.walk env fn fuel w c.item).2.calls
              = w.calls ++ (upToFirstErr c.preorder).map visitCall
          ∧ (firstErr c.preorder = none →
              (Client.walk env fn fuel w c.item).2.err = none
              ∧ (Client.walk env fn fuel w c.item).2.reqs = w.reqs ++ dirReqs U c.preorder) := by
        intro pre c post hsplit hpre
        refine hts (t :: pre) c post (by rw [hsplit]; rfl) ?_
        intro x hx
        simp only [preorderList, List.mem_append] at hx
        rcases hx with hx | hx
        · exact (firstErr_eq_none_iff _).1 hfe x hx
        · exact hpre x hx
      obtain ⟨i1, i2, i3⟩ := ih hts1 w1 h4
      have hgo : ¬ ((none : Option Err) ≠ none ∧ (none : Option Err) ≠ some Err.SkipDir) := by
        simp
      simp only [Option.map_none', if_neg hgo, firstErr_append, hfe, Option.none_or,
        upToFirstErr_append_of_none _ _ hfe, List.map_append]
      refine ⟨i1, ?_, ?_⟩
      · rw [i2, h2, upToFirstErr_of_none _ hfe, List.append_assoc]
      · intro hrest
        obtain ⟨j1, j2⟩ := i3 hrest
        refine ⟨j1, ?_⟩
        rw [j2, h5, dirReqs_append, List.append_assoc]

theorem preorderList_eq_flatMap (ts : List Tree) :
    preorderList ts = ts.flatMap Tree.preorder := by
  induction ts with
  | nil => simp [preorderList]
  | cons t ts ih => simp [preorderList, ih]

theorem walk_tree (env : Env) (fn : WalkFunc) (urlstr href : GoString)
    (hfix : FixedTransport env) (hhref : env.Href [] = .ok (urlstr, href))
    (hnil : ∀ hist p it, fn hist p it none = none)
    (t : Tree) (hs : Serves env urlstr t) :
    (∀ e ∈ t.preorder.filterMap Prod.snd, ∀ hist p it,
        fn hist p it (some (Err.other e)) = some (Err.other e)) →
    ∀ fuel, t.height ≤ fuel → ∀ w, w.err = none →
      (Client.walk env fn fuel w t.item).1 = Res.ret ((firstErr t.preorder).map Err.other)
      ∧ (Client.walk env fn fuel w t.item).2.calls
          = w.calls ++ (upToFirstErr t.preorder).map visitCall
      ∧ (firstErr t.preorder = none →
          (Client.walk env fn fuel w t.item).2.err = none
          ∧ (Client.walk env fn fuel w t.item).2.reqs
              = w.reqs ++ dirReqs (if hasSlashSuffix urlstr then urlstr else urlstr ++ [47])
                  t.preorder) := by
  induction hs with
  | file item hfile =>
    intro _ fuel hfuel w hw
    obtain ⟨k, rfl⟩ : ∃ k, fuel = k + 1 := ⟨fuel - 1, by simp [Tree.height] at hfuel; omega⟩
    rw [Tree.item, walk_file env fn k w item hfile, hnil]
    simp [Tree.preorder, firstErr, upToFirstErr, visitCall, dirReqs, hfile, hw]
  | failed item e hdir hlist =>
    intro herr fuel hfuel w hw
    obtain ⟨k, rfl⟩ : ∃ k, fuel = k + 1 := ⟨fuel - 1, by simp [Tree.height] at hfuel; omega⟩
    have hl : (Client.list env w urlstr item.Href true).1 = .error e :=
      (list_fst_fixed env hfix w World.fresh urlstr item.Href true hw rfl).trans hlist
    rw [Tree.item, walk_dir_error env fn k w _ item urlstr href e hdir hhref (Prod.ext hl rfl),
      herr e (by simp [Tree.preorder])]
    simp [Tree.preorder, firstErr, upToFirstErr, visitCall]
  | dir item children hdir hlist _ ih =>
    intro herr fuel hfuel w hw
    obtain ⟨k, rfl⟩ : ∃ k, fuel = k + 1 := ⟨fuel - 1, by simp [Tree.height] at hfuel; omega⟩
    have hk : heightList children ≤ k := by simp [Tree.height] at hfuel; exact hfuel
    have hl : (Client.list env w urlstr item.Href true).1 = .ok (children.map Tree.item) :=
      (list_fst_fixed env hfix w World.fresh urlstr item.Href true hw rfl).trans hlist
    have hl2 : Client.list env w urlstr item.Href true
        = (.ok (children.map Tree.item),
           { err := none,
             reqs := w.reqs ++ listingReqs (if hasSlashSuffix urlstr then urlstr else urlstr ++ [47])
               item.Href,
             calls := w.calls }) := by
      have h2 := list_ok_world env w (Client.list env w urlstr item.Href true).2 urlstr item.Href
        true (children.map Tree.item) (Prod.ext hl rfl)
      exact Prod.ext hl h2
    have hchildren : ∀ pre c post, children = pre ++ c :: post →
        (∀ x ∈ preorderList pre, x.2 = none) → ∀ w, w.err = none →
        (Client.walk env fn k w c.item).1 = Res.ret ((firstErr c.preorder).map Err.other)
        ∧ (Client.walk env fn k w c.item).2.calls
            = w.calls ++ (upToFirstErr c.preorder).map visitCall
        ∧ (firstErr c.preorder = none →
            (Client.walk env fn k w c.item).2.err = none
            ∧ (Client.walk env fn k w c.item).2.reqs
                = w.reqs ++ dirReqs (if hasSlashSuffix urlstr then urlstr else urlstr ++ [47])
                    c.preorder) := by
      intro pre c post hsplit hpre w hw
      have hc : c ∈ children := by rw [hsplit]; simp
      refine ih pre c post hsplit hpre ?_ k
        (le_trans (height_le_heightList c children hc) hk) w hw
      intro e he
      apply herr e
      simp only [Tree.preorder, List.filterMap_cons, preorderList_eq_flatMap]
      simp only [List.mem_filterMap, List.mem_flatMap] at he ⊢
      obtain ⟨x, hx, hxe⟩ := he
      exact ⟨x, ⟨c, hc, hx⟩, hxe⟩
    obtain ⟨f1, f2, f3⟩ := walkLoop_forest env fn
      (if hasSlashSuffix urlstr then urlstr else urlstr ++ [47]) k children hchildren
      { err := none,
        reqs := w.reqs ++ listingReqs (if hasSlashSuffix urlstr then urlstr else urlstr ++ [47])
          item.Href,
        calls := w.calls ++ [{ path := item.Href, item := some item, err := none, ret := none }] }
      rfl
    rw [Tree.item, walk_dir_ok env fn k w _ item urlstr href _ hdir hhref hl2, hnil]
    simp only [ne_eq, not_true_eq_false, if_false]
    have hfe : firstErr (Tree.dir item children).preorder = firstErr (preorderList children) := by
      simp [Tree.preorder, firstErr]
    have hup : upToFirstErr (Tree.dir item children).preorder
        = (item, none) :: upToFirstErr (preorderList children) := by
      simp [Tree.preorder, upToFirstErr]
    rw [hfe, hup]
    refine ⟨f1, ?_, ?_⟩
    · rw [f2]; simp [visitCall]
    · intro hnone
      obtain ⟨g1, g2⟩ := f3 hnone
      refine ⟨g1, ?_⟩
      rw [g2]
      simp [Tree.preorder, dirReqs, hdir]

theorem upToFirstErr_of_some (l : List (Item × Option LibErr)) (E : LibErr)
    (h : firstErr l = some E) :
    ∃ pre x, upToFirstErr l = pre ++ [x] ∧ x.2 = some E ∧ ∀ y ∈ pre, y.2 = none := by
  induction l with
  | nil => simp [firstErr] at h
  | cons x l ih =>
    obtain ⟨i, o⟩ := x
    cases o with
    | some e =>
      have he : e = E := by simpa [firstErr] using h
      exact ⟨[], (i, some e), by simp [upToFirstErr], by simp [he], by simp⟩
    | none =>
      have hl : firstErr l = some E := by simpa [firstErr] using h
      obtain ⟨pre, x, h1, h2, h3⟩ := ih hl
      refine ⟨(i, none) :: pre, x, by simp [upToFirstErr, h1], h2, ?_⟩
      intro y hy
      rcases List.mem_cons.1 hy with rfl | hy
      · rfl
      · exact h3 y hy

theorem recorded_visitCall (l : List (Item × Option LibErr)) (h : ∀ x ∈ l, x.2 = none) :
    recorded (l.map visitCall) = l.map Prod.fst := by
  induction l with
  | nil => rfl
  | cons x l ih =>
    have hx : x.2 = none := h x (List.mem_cons_self _ _)
    have hl := ih (fun y hy => h y (List.mem_cons_of_mem _ hy))
    simp only [recorded] at hl
    simp [recorded, visitCall, hx, hl]

theorem Walk_of_tree (env : Env) (fn : WalkFunc) (urlstr href : GoString) (fuel : Nat)
    (w : World) (root : GoString) (t : Tree)
    (hfix : FixedTransport env) (hhref : env.Href [] = .ok (urlstr, href))
    (hnil : ∀ hist p it, fn hist p it none = none)
    (herr : ∀ e ∈ t.preorder.filterMap Prod.snd, ∀ hist p it,
        fn hist p it (some (Err.other e)) = some (Err.other e))
    (hinit : (Client.init env w (if hasSlashSuffix urlstr then urlstr else urlstr ++ [47])).1
      = none)
    (hs : Serves env urlstr t)
    (hroot : t.item = rootItem env (if hasSlashSuffix href then href else href ++ [47]))
    (hfuel : t.height ≤ fuel) :
    (Client.Walk env fn fuel w root).1 = Res.ret ((firstErr t.preorder).map Err.other)
      ∧ (Client.Walk env fn fuel w root).2.calls
          = w.calls ++ (upToFirstErr t.preorder).map visitCall
      ∧ (firstErr t.preorder = none →
          (Client.Walk env fn fuel w root).2.err = none
          ∧ (Client.Walk env fn fuel w root).2.reqs
              = w.reqs ++ handshakeReq (if hasSlashSuffix urlstr then urlstr else urlstr ++ [47])
                  :: dirReqs (if hasSlashSuffix urlstr then urlstr else urlstr ++ [47])
                      t.preorder) := by
  have hw1 := init_none_world env w
    (Client.init env w (if hasSlashSuffix urlstr then urlstr else urlstr ++ [47])).2
    (if hasSlashSuffix urlstr then urlstr else urlstr ++ [47]) (Prod.ext hinit rfl)
  have hg : Client.init env w (if hasSlashSuffix urlstr then urlstr else urlstr ++ [47])
      = (none, { err := none,
                 reqs := w.reqs ++ [handshakeReq (if hasSlashSuffix urlstr then urlstr else urlstr ++ [47])],
                 calls := w.calls }) := Prod.ext hinit hw1
  obtain ⟨h1, h2, h3⟩ := walk_tree env fn urlstr href hfix hhref hnil t hs herr fuel hfuel
    { err := none,
      reqs := w.reqs ++ [handshakeReq (if hasSlashSuffix urlstr then urlstr else urlstr ++ [47])],
      calls := w.calls } rfl
  rw [hroot] at h1 h2 h3
  have hW : Client.Walk env fn fuel w root
      = (Res.ret ((firstErr t.preorder).map Err.other),
         (Client.walk env fn fuel
            { err := none,
              reqs := w.reqs ++ [handshakeReq (if hasSlashSuffix urlstr then urlstr else urlstr ++ [47])],
              calls := w.calls }
            (rootItem env (if hasSlashSuffix href then href else href ++ [47]))).2) := by
    simp only [Client.Walk, hhref, hg]
    rw [h1]
    cases firstErr t.preorder <;> simp
  rw [hW]
  refine ⟨rfl, h2, ?_⟩
  intro hnone
  obtain ⟨g1, g2⟩ := h3 hnone
  refine ⟨g1, ?_⟩
  simp only [g2]
  simp

theorem loopEnv_fixed : FixedTransport loopEnv := fun _ _ => rfl

theorem badLoopEnv_fixed : FixedTransport badLoopEnv := fun _ _ => rfl

theorem walkLoop_singleton_outOfFuel (rec : World → Item → Res × World) (w : World) (x : Item)
    (h : (rec w x).1 = Res.outOfFuel) : (walkLoop rec w [x]).1 = Res.outOfFuel := by
  unfold walkLoop
  generalize rec w x = r at h ⊢
  obtain ⟨r1, w1⟩ := r
  simp only at h
  subst h
  rfl

theorem loopEnv_walk_outOfFuel (fn : WalkFunc) (hnil : ∀ hist p it, fn hist p it none = none)
    (fuel : Nat) (w : World) (hw : w.err = none) :
    (Client.walk loopEnv fn fuel w (dirItem "/%2525")).1 = Res.outOfFuel := by
  induction fuel generalizing w with
  | zero => rfl
  | succ k ih =>
    have hl : (Client.list loopEnv w (bytes "https://h/") (dirItem "/%2525").Href true).1
        = .ok [dirItem "/%2525"] :=
      (list_fst_fixed loopEnv loopEnv_fixed w World.fresh (bytes "https://h/")
        (dirItem "/%2525").Href true hw rfl).trans (by decide)
    have hl2 : Client.list loopEnv w (bytes "https://h/") (dirItem "/%2525").Href true
        = (.ok [dirItem "/%2525"],
           { err := none,
             reqs := w.reqs ++ listingReqs
               (if hasSlashSuffix (bytes "https://h/") then bytes "https://h/"
                else bytes "https://h/" ++ [47]) (dirItem "/%2525").Href,
             calls := w.calls }) :=
      Prod.ext hl (list_ok_world loopEnv w _ (bytes "https://h/") (dirItem "/%2525").Href true
        [dirItem "/%2525"] (Prod.ext hl rfl))
    rw [walk_dir_ok loopEnv fn k w _ (dirItem "/%2525") (bytes "https://h/") (bytes "/") _
      (by decide) (by decide) hl2, hnil]
    simp only [ne_eq, not_true_eq_false, if_false]
    exact walkLoop_singleton_outOfFuel _ _ _ (ih _ rfl)

theorem loopEnv_Walk_outOfFuel (fn : WalkFunc) (hnil : ∀ hist p it, fn hist p it none = none)
    (fuel : Nat) :
    (Client.Walk loopEnv fn fuel World.fresh (bytes "/")).1 = Res.outOfFuel := by
  have hinit : Client.init loopEnv World.fresh
      (if hasSlashSuffix (bytes "https://h/") then bytes "https://h/" else bytes "https://h/" ++ [47])
      = (none, { err := none, reqs := [handshakeReq (bytes "https://h/")], calls := [] }) := by
    decide
  have hwalk : (Client.walk loopEnv fn fuel
      { err := none, reqs := [handshakeReq (bytes "https://h/")], calls := [] }
      (rootItem loopEnv (bytes "/"))).1 = Res.outOfFuel := by
    cases fuel with
    | zero => rfl
    | succ k =>
      have hl2 : Client.list loopEnv
          { err := none, reqs := [handshakeReq (bytes "https://h/")], calls := [] }
          (bytes "https://h/") (rootItem loopEnv (bytes "/")).Href true
          = (.ok [dirItem "/%2525"],
             { err := none,
               reqs := [handshakeReq (bytes "https://h/")]
                 ++ listingReqs (bytes "https://h/") (bytes "/"),
               calls := [] }) := by
        decide
      rw [walk_dir_ok loopEnv fn k _ _ (rootItem loopEnv (bytes "/")) (bytes "https://h/")
        (bytes "/") _ (by decide) (by decide) hl2, hnil]
      simp only [ne_eq, not_true_eq_false, if_false]
      exact walkLoop_singleton_outOfFuel _ _ _ (loopEnv_walk_outOfFuel fn hnil k _ rfl)
  have hhref : loopEnv.Href [] = .ok (bytes "https://h/", bytes "/") := rfl
  have hslash : (if hasSlashSuffix (bytes "/") then bytes "/" else bytes "/" ++ [47]) = bytes "/" := by
    decide
  simp only [Client.Walk, hhref, hinit, hslash]
  revert hwalk
  generalize Client.walk loopEnv fn fuel _ (rootItem loopEnv (bytes "/")) = r
  obtain ⟨r1, w3⟩ := r
  intro h
  simp only at h
  subst h
  rfl

theorem badLoopEnv_serves : Serves badLoopEnv (bytes "https://h/") badLoopTree := by
  refine Serves.dir _ _ (by decide) (by decide) ?_
  intro pre c post hsplit hpre
  rcases pre with _ | ⟨a, _ | ⟨b, pre⟩⟩
  · simp only [List.nil_append, List.cons.injEq] at hsplit
    rw [← hsplit.1]
    exact Serves.failed _ _ (by decide) (by decide)
  · simp only [List.cons_append, List.nil_append, List.cons.injEq] at hsplit
    exfalso
    have := hpre (dirItem "/bad/", some "status != 200")
      (by rw [← hsplit.1]; simp [preorderList, Tree.preorder])
    simp at this
  · simp at hsplit

theorem demoEnv_fixed : FixedTransport demoEnv := fun _ _ => rfl

theorem brokenEnv_fixed : FixedTransport brokenEnv := fun _ _ => rfl

theorem demoEnv_serves : Serves demoEnv (bytes "https://h/demo") demoTree := by
  refine Serves.dir _ _ (by decide) (by decide) ?_
  intro pre c post hsplit _
  have hc : c ∈ [Tree.file (fileItem "/demo/a.txt" 5),
      Tree.dir (dirItem "/demo/sub/") [Tree.file (fileItem "/demo/sub/b c.txt" 7)]] := by
    rw [hsplit]; simp
  simp only [List.mem_cons, List.mem_singleton, List.not_mem_nil, or_false] at hc
  rcases hc with rfl | rfl
  · exact Serves.file _ (by decide)
  · refine Serves.dir _ _ (by decide) (by decide) ?_
    intro pre1 c1 post1 hsplit1 _
    have hc1 : c1 ∈ [Tree.file (fileItem "/demo/sub/b c.txt" 7)] := by
      rw [hsplit1]; simp
    rw [List.mem_singleton.1 hc1]
    exact Serves.file _ (by decide)

/-- C4 (as stated) fails: on the server whose directory `/%2525` lists itself,
the assignment of responses is fixed and finite, the handshake and both
listings succeed and the callback returns nil, yet `Walk` returns for no
recursion budget: the visit descends into `/%2525` again and again. -/
theorem Walk_never_returns_on_self_listing_directory :
    FixedTransport loopEnv
      ∧ (Client.init loopEnv World.fresh (bytes "https://h/")).1 = none
      ∧ (Client.list loopEnv World.fresh (bytes "https://h/") (bytes "/") true).1
          = .ok [dirItem "/%2525"]
      ∧ (Client.list loopEnv World.fresh (bytes "https://h/") (bytes "/%2525") true).1
          = .ok [dirItem "/%2525"]
      ∧ ¬ ∃ fuel e, (Client.Walk loopEnv nilFn fuel World.fresh (bytes "/")).1 = Res.ret e := by
  refine ⟨loopEnv_fixed, by decide, by decide, by decide, ?_⟩
  rintro ⟨fuel, e, h⟩
  rw [loopEnv_Walk_outOfFuel nilFn (fun _ _ _ => rfl) fuel] at h
  cases h

/-- C4 (amended). For a client whose URL resolves and a fixed assignment of
responses under which the handshake succeeds and the filtered listings below
the synthesized root item form the finite tree `t`, every listing succeeding,
and for a callback that always returns nil, `Walk` (given a recursion budget
of at least the height of `t`) returns nil after invoking the callback exactly
on the depth-first pre-order of `t`: the root item first, then each child in
listing order followed by its whole subtree before the next sibling.  Every
item gets one callback, and the requests sent are the handshake and, for each
directory in that order, its listing; a non-directory item causes no
request. -/
theorem Walk_visits_preorder (env : Env) (fn : WalkFunc) (urlstr href : GoString) (fuel : Nat)
    (w : World) (root : GoString) (t : Tree)
    (hfix : FixedTransport env) (hhref : env.Href [] = .ok (urlstr, href))
    (hnil : ∀ hist p it err, fn hist p it err = none)
    (hinit : (Client.init env w (if hasSlashSuffix urlstr then urlstr else urlstr ++ [47])).1
      = none)
    (hs : Serves env urlstr t)
    (hroot : t.item = rootItem env (if hasSlashSuffix href then href else href ++ [47]))
    (hok : ∀ x ∈ t.preorder, x.2 = none)
    (hfuel : t.height ≤ fuel) :
    Client.Walk env fn fuel w root
      = (Res.ret none,
         { err := none,
           reqs := w.reqs ++ handshakeReq (if hasSlashSuffix urlstr then urlstr else urlstr ++ [47])
             :: dirReqs (if hasSlashSuffix urlstr then urlstr else urlstr ++ [47]) t.preorder,
           calls := w.calls ++ t.preorder.map
             (fun x => { path := x.1.Href, item := some x.1, err := none, ret := none }) }) := by
  have hfe : firstErr t.preorder = none := (firstErr_eq_none_iff _).2 hok
  have herr : ∀ e ∈ t.preorder.filterMap Prod.snd, ∀ hist p it,
      fn hist p it (some (Err.other e)) = some (Err.other e) := by
    intro e he
    simp only [List.mem_filterMap] at he
    obtain ⟨x, hx, hxe⟩ := he
    rw [hok x hx] at hxe
    cases hxe
  obtain ⟨h1, h2, h3⟩ := Walk_of_tree env fn urlstr href fuel w root t hfix hhref
    (fun hist p it => hnil hist p it none) herr hinit hs hroot hfuel
  obtain ⟨h4, h5⟩ := h3 hfe
  have hcalls : (upToFirstErr t.preorder).map visitCall
      = t.preorder.map (fun x => { path := x.1.Href, item := some x.1, err := none, ret := none }) := by
    rw [upToFirstErr_of_none _ hfe]
    apply List.map_congr_left
    intro x hx
    simp [visitCall, hok x hx]
  rw [hfe] at h1
  rw [hcalls] at h2
  generalize Client.Walk env fn fuel w root = r at h1 h2 h4 h5
  obtain ⟨r1, ⟨e, q, c⟩⟩ := r
  simp only at h1 h2 h4 h5
  subst h1 h2 h4 h5
  rfl

/-- C4 on the demo server: four callbacks in pre-order, the file `b c.txt` of
`sub/` before nothing else follows, and five requests (the handshake and two
listings with their repeated handshake). -/
theorem Walk_visits_preorder_witness :
    Client.Walk demoEnv nilFn 3 World.fresh (bytes "/")
      = (Res.ret none,
         { err := none,
           reqs := [handshakeReq (bytes "https://h/demo/"),
                    handshakeReq (bytes "https://h/demo/"),
                    listingReq (bytes "https://h/demo/") (bytes "/demo/"),
                    handshakeReq (bytes "https://h/demo/"),
                    listingReq (bytes "https://h/demo/") (bytes "/demo/sub/")],
           calls := [{ path := bytes "/demo/", item := some (rootItem demoEnv (bytes "/demo/")),
                       err := none, ret := none },
                     { path := bytes "/demo/a.txt", item := some (fileItem "/demo/a.txt" 5),
                       err := none, ret := none },
                     { path := bytes "/demo/sub/", item := some (dirItem "/demo/sub/"),
                       err := none, ret := none },
                     { path := bytes "/demo/sub/b c.txt",
                       item := some (fileItem "/demo/sub/b c.txt" 7),
                       err := none, ret := none }] }) := by
  rw [Walk_visits_preorder demoEnv nilFn (bytes "https://h/demo") (bytes "/demo") 3 World.fresh
    (bytes "/") demoTree demoEnv_fixed (by decide) (fun _ _ _ _ => rfl) (by decide)
    demoEnv_serves (by decide) (by decide) (by decide)]
  decide

/-- C8 (as stated) fails: on the server whose directory `/%2525` lists itself,
with the callback of `TestWalk`, the handshake and every listing succeed, yet
`Walk` returns for no recursion budget, neither nil nor an error. -/
theorem self_listing_directory_defeats_testWalkFn :
    FixedTransport loopEnv
      ∧ (Client.init loopEnv World.fresh (bytes "https://h/")).1 = none
      ∧ (Client.list loopEnv World.fresh (bytes "https://h/") (bytes "/") true).1
          = .ok [dirItem "/%2525"]
      ∧ (Client.list loopEnv World.fresh (bytes "https://h/") (bytes "/%2525") true).1
          = .ok [dirItem "/%2525"]
      ∧ ¬ ∃ fuel e, (Client.Walk loopEnv testWalkFn fuel World.fresh (bytes "/")).1
          = Res.ret e := by
  refine ⟨loopEnv_fixed, by decide, by decide, by decide, ?_⟩
  rintro ⟨fuel, e, h⟩
  rw [loopEnv_Walk_outOfFuel testWalkFn (fun _ _ _ => rfl) fuel] at h
  cases h

/-- C8 (amended). With the callback of `TestWalk`, on a client whose URL
resolves: when the handshake fails with `E`, `Walk` returns `E` after the
single callback that received it.  When the handshake succeeds and, under a
fixed assignment of responses, the depth-first visit below the root item is
finite up to its first failing listing (the tree `t` of listing outcomes is
served; what lies after the first failing listing is not constrained), `Walk`
(given a recursion budget of at least the height of `t`) returns the first
listing error of the depth-first pre-order of `t`, verbatim, or nil when there
is none; the callbacks are the pre-order up to and including the first item
whose listing failed, so `Walk` returns nil exactly when every listing
performed succeeded, the recorded items are then all items of `t`, and after a
failure the invocation that received the error is the last one. -/
theorem Walk_testWalkFn (env : Env) (urlstr href : GoString) (fuel : Nat) (w : World)
    (root : GoString) (hhref : env.Href [] = .ok (urlstr, href)) :
    (∀ E, (Client.init env w (if hasSlashSuffix urlstr then urlstr else urlstr ++ [47])).1
        = some E →
        (Client.Walk env testWalkFn fuel w root).1 = Res.ret (some (Err.other E))
        ∧ (Client.Walk env testWalkFn fuel w root).2.calls
            = w.calls ++ [{ path := root, item := none, err := some (Err.other E),
                            ret := some (Err.other E) }])
      ∧ (∀ t, FixedTransport env →
        (Client.init env w (if hasSlashSuffix urlstr then urlstr else urlstr ++ [47])).1 = none →
        Serves env urlstr t →
        t.item = rootItem env (if hasSlashSuffix href then href else href ++ [47]) →
        t.height ≤ fuel →
        (Client.Walk env testWalkFn fuel w root).1
            = Res.ret ((firstErr t.preorder).map Err.other)
        ∧ (Client.Walk env testWalkFn fuel w root).2.calls
            = w.calls ++ (upToFirstErr t.preorder).map visitCall
        ∧ ((Client.Walk env testWalkFn fuel w root).1 = Res.ret none
            ↔ ∀ x ∈ upToFirstErr t.preorder, x.2 = none)
        ∧ (firstErr t.preorder = none →
            recorded ((upToFirstErr t.preorder).map visitCall) = t.preorder.map Prod.fst)
        ∧ (∀ E, firstErr t.preorder = some E →
            ∃ pre x, upToFirstErr t.preorder = pre ++ [x] ∧ x.2 = some E
              ∧ ∀ y ∈ pre, y.2 = none)) := by
  constructor
  · intro E hE
    rw [Walk_of_init_error env testWalkFn fuel w root urlstr href E hhref hE]
    simp [testWalkFn]
  · intro t hfix hinit hs hroot hfuel
    obtain ⟨h1, h2, _⟩ := Walk_of_tree env testWalkFn urlstr href fuel w root t hfix hhref
      (fun _ _ _ => rfl) (fun _ _ _ _ _ => rfl) hinit hs hroot hfuel
    refine ⟨h1, h2, ?_, ?_, ?_⟩
    · rw [h1]
      cases hfe : firstErr t.preorder with
      | none =>
        rw [upToFirstErr_of_none _ hfe]
        simpa using (firstErr_eq_none_iff _).1 hfe
      | some E =>
        obtain ⟨pre, x, hx1, hx2, _⟩ := upToFirstErr_of_some _ E hfe
        simp only [Option.map_some', Res.ret.injEq, reduceCtorEq, false_iff, not_forall]
        exact ⟨x, by rw [hx1]; simp, by rw [hx2]; simp⟩
    · intro hfe
      rw [upToFirstErr_of_none _ hfe]
      exact recorded_visitCall _ ((firstErr_eq_none_iff _).1 hfe)
    · intro E hfe
      exact upToFirstErr_of_some _ E hfe

/-- C8 (amended) on concrete servers: an unreachable server makes `Walk` return
the handshake error; a server rejecting listings makes `Walk` return the
listing error of the root after the single callback for the root; and on the
server whose root lists the failing `/bad/` before a self-listing directory,
`Walk` returns the error of `/bad/` after two callbacks and never reaches the
self-listing directory. -/
theorem Walk_testWalkFn_witness :
    (Client.Walk downEnv testWalkFn 1 World.fresh (bytes "/")).1
        = Res.ret (some (Err.other "connection refused"))
      ∧ (Client.Walk brokenEnv testWalkFn 1 World.fresh (bytes "/")).1
        = Res.ret (some (Err.other "status != 200"))
      ∧ (Client.Walk brokenEnv testWalkFn 1 World.fresh (bytes "/")).2.calls
        = [{ path := bytes "/demo/", item := some (rootItem brokenEnv (bytes "/demo/")),
             err := some (Err.other "status != 200"),
             ret := some (Err.other "status != 200") }]
      ∧ (Client.Walk badLoopEnv testWalkFn 2 World.fresh (bytes "/")).1
        = Res.ret (some (Err.other "status != 200"))
      ∧ (Client.Walk badLoopEnv testWalkFn 2 World.fresh (bytes "/")).2.calls
        = [{ path := bytes "/", item := some (rootItem badLoopEnv (bytes "/")),
             err := none, ret := none },
           { path := bytes "/bad/", item := some (dirItem "/bad/"),
             err := some (Err.other "status != 200"),
             ret := some (Err.other "status != 200") }] := by
  have hB := (Walk_testWalkFn brokenEnv (bytes "https://h/demo/") (bytes "/demo/") 1 World.fresh
    (bytes "/") (by decide)).2 (Tree.failed (rootItem brokenEnv (bytes "/demo/")) "status != 200")
    brokenEnv_fixed (by decide) (Serves.failed _ _ (by decide) (by decide)) (by decide) (by decide)
  have hL := (Walk_testWalkFn badLoopEnv (bytes "https://h/") (bytes "/") 2 World.fresh
    (bytes "/") (by decide)).2 badLoopTree badLoopEnv_fixed (by decide) badLoopEnv_serves
    (by decide) (by decide)
  refine ⟨((Walk_testWalkFn downEnv (bytes "https://h/demo/") (bytes "/demo/") 1 World.fresh
    (bytes "/") (by decide)).1 "connection refused" (by decide)).1, ?_, ?_, ?_, ?_⟩
  · rw [hB.1]; decide
  · rw [hB.2.1]; decide
  · rw [hL.1]; decide
  · rw [hL.2.1]; decide

end H5ailist
